import Mathlib

/-!
Shallow embedding of the page-replacement simulator (`main.py`) and proofs
about its three algorithms: `simulate_fifo`, `simulate_lru`, `simulate_optimal`.

Python exceptions that the engine can raise (IndexError from indexing an
empty list, ValueError from `min([])` / `list.index` misses) are modelled by
an `Except PyErr` result; a run that raises no exception is `.ok`.
Python `int` values become `Int` (the frame capacity can be zero or
negative), step counters become `Nat`, the `last_used` dict becomes a
function `Int → Option Nat`, and the float `hit_ratio` becomes `Rat`.
-/

namespace PageSim

/-- Failure kinds corresponding to the Python built-in exceptions the engine
can actually raise. -/
inductive PyErr where
  | indexError : PyErr
  | valueError : PyErr
deriving DecidableEq, Repr

/-- Embeds the dataclass `StepResult`: one simulated reference event. -/
structure StepResult where
  step : Nat
  page : Int
  frames : List Int
  is_hit : Bool
deriving DecidableEq, Repr

/-- Embeds the dataclass `AlgorithmResult`. -/
structure AlgorithmResult where
  name : String
  steps : List StepResult
  total_faults : Nat
deriving DecidableEq, Repr

/-- `AlgorithmResult.total_accesses` property. -/
def AlgorithmResult.total_accesses (r : AlgorithmResult) : Nat :=
  r.steps.length

/-- `AlgorithmResult.total_hits` property (Python int subtraction). -/
def AlgorithmResult.total_hits (r : AlgorithmResult) : Int :=
  (r.total_accesses : Int) - (r.total_faults : Int)

/-- `AlgorithmResult.hit_ratio` property; float division modelled over `Rat`. -/
def AlgorithmResult.hit_ratio (r : AlgorithmResult) : Rat :=
  if r.total_accesses = 0 then 0
  else (r.total_hits : Rat) / (r.total_accesses : Rat)

/-- `AlgorithmResult.miss_ratio` property. -/
def AlgorithmResult.miss_ratio (r : AlgorithmResult) : Rat :=
  1 - AlgorithmResult.hit_ratio r

/-- Default step used only as the `getD` fallback in statements. -/
def dStep : StepResult := ⟨0, 0, [], true⟩

/-! ### FIFO -/

/-- One iteration of the `simulate_fifo` loop body: given the referenced
`page` and the current `frames`/`order` state, produce the next state and
the hit flag, or the Python exception the body would raise. -/
def fifoStep (frames_count : Int) (page : Int) (frames order : List Int) :
    Except PyErr (List Int × List Int × Bool) :=
  if page ∈ frames then
    .ok (frames, order, true)
  else if (frames.length : Int) < frames_count then
    .ok (frames ++ [page], order ++ [page], false)
  else
    match order with
    | [] => .error .indexError
    | victim :: orderRest =>
      match frames.findIdx? (fun q => q == victim) with
      | none => .error .valueError
      | some vi => .ok (frames.set vi page, orderRest ++ [page], false)

/-- The `simulate_fifo` loop over the remaining references, carrying the
1-based step counter `i` and the mutable state. Returns the recorded steps
and the fault count. -/
def fifoGo (frames_count : Int) : Nat → List Int → List Int → List Int →
    Except PyErr (List StepResult × Nat)
  | _, [], _, _ => .ok ([], 0)
  | i, page :: rest, frames, order =>
    match fifoStep frames_count page frames order with
    | .error e => .error e
    | .ok (frames1, order1, hit) =>
      match fifoGo frames_count (i + 1) rest frames1 order1 with
      | .error e => .error e
      | .ok (steps, faults) =>
        .ok (⟨i, page, frames1, hit⟩ :: steps, (if hit then 0 else 1) + faults)

/-- Embeds `simulate_fifo`. -/
def simulate_fifo (reference : List Int) (frames_count : Int) :
    Except PyErr AlgorithmResult :=
  match fifoGo frames_count 1 reference [] [] with
  | .error e => .error e
  | .ok (steps, faults) => .ok ⟨"FIFO", steps, faults⟩

/-! ### LRU -/

/-- Python dict assignment `d[k] = v`. -/
def updateLu (lu : Int → Option Nat) (k : Int) (v : Nat) : Int → Option Nat :=
  fun q => if q = k then some v else lu q

/-- Python `min(x :: xs, key)`: the first element attaining the least key. -/
def pyMinBy (key : Int → Nat) (x : Int) (xs : List Int) : Int :=
  xs.foldl (fun acc y => if key y < key acc then y else acc) x

/-- One iteration of the `simulate_lru` loop body. -/
def lruStep (frames_count : Int) (i : Nat) (page : Int) (frames : List Int)
    (lu : Int → Option Nat) :
    Except PyErr (List Int × (Int → Option Nat) × Bool) :=
  if page ∈ frames then
    .ok (frames, updateLu lu page i, true)
  else if (frames.length : Int) < frames_count then
    .ok (frames ++ [page], updateLu lu page i, false)
  else
    match frames with
    | [] => .error .valueError
    | f :: fs =>
      let lruPage := pyMinBy (fun p => (lu p).getD 0) f fs
      match (f :: fs).findIdx? (fun q => q == lruPage) with
      | none => .error .valueError
      | some vi => .ok ((f :: fs).set vi page, updateLu lu page i, false)

/-- The `simulate_lru` loop over the remaining references. -/
def lruGo (frames_count : Int) : Nat → List Int → List Int → (Int → Option Nat) →
    Except PyErr (List StepResult × Nat)
  | _, [], _, _ => .ok ([], 0)
  | i, page :: rest, frames, lu =>
    match lruStep frames_count i page frames lu with
    | .error e => .error e
    | .ok (frames1, lu1, hit) =>
      match lruGo frames_count (i + 1) rest frames1 lu1 with
      | .error e => .error e
      | .ok (steps, faults) =>
        .ok (⟨i, page, frames1, hit⟩ :: steps, (if hit then 0 else 1) + faults)

/-- The 1-based step index of the last reference to `p` within a prefix of
the reference sequence, or `none` when `p` has not been referenced. This is
what the `last_used` dict of `simulate_lru` holds after that prefix. -/
def lastRef (p : Int) : List Int → Option Nat
  | [] => none
  | a :: l =>
    match lastRef p l with
    | some j => some (j + 1)
    | none => if a = p then some 1 else none

/-- Embeds `simulate_lru`. -/
def simulate_lru (reference : List Int) (frames_count : Int) :
    Except PyErr AlgorithmResult :=
  match lruGo frames_count 1 reference [] (fun _ => none) with
  | .error e => .error e
  | .ok (steps, faults) => .ok ⟨"LRU", steps, faults⟩

/-! ### Optimal -/

/-- Python `reference.index(p, start)` as an `Option`: the least position
`≥ start` holding `p`, or `none` (Python raises ValueError). -/
def pyIndexFrom (reference : List Int) (p : Int) (start : Nat) : Option Nat :=
  match (reference.drop start).findIdx? (fun q => q == p) with
  | some j => some (start + j)
  | none => none

/-- The victim-scan loop of `simulate_optimal`: walks the frame slots from
position `idx`, carrying `far` (= Python `farthest_use`, with `-1` for
"nothing scanned yet") and `vi` (= Python `victim_index`). `start` is the
position after the current reference, i.e. `current_index + 1`. A slot whose
page has no occurrence at or after `start` ends the scan at once. -/
def optScan (reference : List Int) (start : Nat) :
    List Int → Nat → Int → Int → Int
  | [], _, _, vi => vi
  | p :: rest, idx, far, vi =>
    match pyIndexFrom reference p start with
    | none => (idx : Int)
    | some nu =>
      if far < (nu : Int) then optScan reference start rest (idx + 1) (nu : Int) (idx : Int)
      else optScan reference start rest (idx + 1) far vi

/-- One iteration of the `simulate_optimal` loop body; `i` is the 1-based
step number, so the lookahead for the next use starts at position `i`
(Python `current_index + 1`). -/
def optStep (reference : List Int) (frames_count : Int) (i : Nat) (page : Int)
    (frames : List Int) : Except PyErr (List Int × Bool) :=
  if page ∈ frames then
    .ok (frames, true)
  else if (frames.length : Int) < frames_count then
    .ok (frames ++ [page], false)
  else
    let vi0 := optScan reference i frames 0 (-1) (-1)
    let vi := if vi0 = -1 then 0 else vi0
    if vi.toNat < frames.length then .ok (frames.set vi.toNat page, false)
    else .error .indexError

/-- Spec-side characterization of the optimal victim: slot `k` holds page
`vq`; when some resident page has no future occurrence at or after position
`i`, the victim is the first such page in slot-scan order; otherwise the
victim attains the largest next-occurrence index, ties broken by lowest
slot index. -/
def OptVictimSpec (reference : List Int) (i : Nat) (full : List Int)
    (k : Nat) (vq : Int) : Prop :=
  k < full.length ∧ full[k]? = some vq ∧
  ((∃ (j : Nat) (q : Int), full[j]? = some q ∧ pyIndexFrom reference q i = none) →
    pyIndexFrom reference vq i = none ∧
    ∀ (j : Nat) (q : Int), j < k → full[j]? = some q →
      pyIndexFrom reference q i ≠ none) ∧
  ((∀ (j : Nat) (q : Int), full[j]? = some q → pyIndexFrom reference q i ≠ none) →
    (∀ (j : Nat) (q : Int), full[j]? = some q →
      (pyIndexFrom reference q i).getD 0 ≤ (pyIndexFrom reference vq i).getD 0) ∧
    (∀ (j : Nat) (q : Int), j < k → full[j]? = some q →
      (pyIndexFrom reference q i).getD 0 < (pyIndexFrom reference vq i).getD 0))

/-- The `simulate_optimal` loop over the remaining references. -/
def optGo (reference : List Int) (frames_count : Int) : Nat → List Int → List Int →
    Except PyErr (List StepResult × Nat)
  | _, [], _ => .ok ([], 0)
  | i, page :: rest, frames =>
    match optStep reference frames_count i page frames with
    | .error e => .error e
    | .ok (frames1, hit) =>
      match optGo reference frames_count (i + 1) rest frames1 with
      | .error e => .error e
      | .ok (steps, faults) =>
        .ok (⟨i, page, frames1, hit⟩ :: steps, (if hit then 0 else 1) + faults)

/-- Next-use distance of page `x` in a remaining reference stretch: the
position of its first occurrence, or `⊤` when it never occurs again. Used
to compare candidate victims in the optimality argument. -/
def nxt (σ : List Int) (x : Int) : ℕ∞ :=
  match σ.findIdx? (fun q => q == x) with
  | some j => (j : ℕ∞)
  | none => ⊤

/-- The offline-optimal number of faults for serving the reference stretch
`σ` from resident set `S` with `cap` frames, minimizing over every possible
eviction choice. The final branch is unreachable for `cap ≥ 1`. -/
def minF (cap : Nat) : List Int → Finset Int → Nat
  | [], _ => 0
  | p :: σ, S =>
    if p ∈ S then minF cap σ S
    else if S.card < cap then 1 + minF cap σ (insert p S)
    else if hS : S.Nonempty then
      1 + S.inf' hS (fun q => minF cap σ (insert p (S.erase q)))
    else 1 + minF cap σ S

/-- Embeds `simulate_optimal`. -/
def simulate_optimal (reference : List Int) (frames_count : Int) :
    Except PyErr AlgorithmResult :=
  match optGo reference frames_count 1 reference [] with
  | .error e => .error e
  | .ok (steps, faults) => .ok ⟨"Optimal", steps, faults⟩


end PageSim

namespace PageSim

/-- When `v ∈ l`, the slot scan `findIdx?` locates exactly `l.indexOf v`. -/
theorem findIdxQ_eq_indexOf (v : Int) (l : List Int) (h : v ∈ l) :
    l.findIdx? (fun q => q == v) = some (l.indexOf v) := by
  induction l with
  | nil => simp at h
  | cons b t ih =>
    rw [List.findIdx?_cons]
    by_cases hb : b = v
    · subst hb; simp [List.indexOf_cons]
    · have hv : v ∈ t := by
        rcases List.mem_cons.mp h with h1 | h1
        · exact absurd h1.symm hb
        · exact h1
      have hbv : (b == v) = false := by simp [hb]
      rw [if_neg (by simp [hb] : ¬ ((b == v) = true))]
      simp only [List.indexOf_cons, hbv, cond_false]
      rw [List.findIdx?_succ, ih hv]
      simp

/-- Positions before `l.indexOf v` do not hold `v`. -/
theorem getElem_lt_indexOf_ne (v : Int) (l : List Int) (j : Nat)
    (hj : j < l.indexOf v) : l[j]? ≠ some v := by
  induction l generalizing j with
  | nil => simp
  | cons b t ih =>
    rw [List.indexOf_cons] at hj
    by_cases hb : b = v
    · simp [hb] at hj
    · have hbv : (b == v) = false := by simp [hb]
      rw [hbv] at hj
      simp only [cond_false] at hj
      cases j with
      | zero => simp only [List.getElem?_cons_zero]; intro hc; exact hb (by injection hc)
      | succ j => rw [List.getElem?_cons_succ]; exact ih j (by omega)

/-- Writing `a` into slot `k` permutes to consing `a` onto the list with
slot `k` removed. -/
theorem set_perm_cons_eraseIdx (a : Int) : ∀ (l : List Int) (k : Nat), k < l.length →
    (l.set k a).Perm (a :: l.eraseIdx k)
  | [], k, h => by simp at h
  | b :: t, 0, _ => by simp [List.Perm.refl]
  | b :: t, k + 1, h => by
    simp only [List.set_cons_succ, List.eraseIdx_cons_succ]
    exact ((set_perm_cons_eraseIdx a t k (by simpa using h)).cons b).trans
      (List.Perm.swap a b _)

/-- A list permutes to its element at slot `k` consed onto the rest. -/
theorem perm_cons_eraseIdx (a : Int) : ∀ (l : List Int) (k : Nat), l[k]? = some a →
    l.Perm (a :: l.eraseIdx k)
  | [], k, h => by simp at h
  | b :: t, 0, h => by
    simp only [List.getElem?_cons_zero] at h
    injection h with h; subst h; simp [List.Perm.refl]
  | b :: t, k + 1, h => by
    simp only [List.getElem?_cons_succ] at h
    simp only [List.eraseIdx_cons_succ]
    exact ((perm_cons_eraseIdx a t k h).cons b).trans (List.Perm.swap a b _)

/-- C3: FIFO bookkeeping is an arrival-order queue of the resident pages:
a hit leaves frames and queue untouched; on a fault with spare capacity the
page is appended to both; on a fault with the frame set full the victim is
the page at the front of the queue, its (unique, lowest-index) frame slot is
overwritten in place by the new page and the new page is pushed to the back
of the queue; and every successful step keeps the queue a permutation of
the resident pages. -/
theorem c3_fifo_policy (cap page : Int) (frames order : List Int)
    (hperm : order.Perm frames) :
    (page ∈ frames → fifoStep cap page frames order = .ok (frames, order, true)) ∧
    (page ∉ frames → (frames.length : Int) < cap →
      fifoStep cap page frames order = .ok (frames ++ [page], order ++ [page], false)) ∧
    (page ∉ frames → ¬ ((frames.length : Int) < cap) →
      ∀ v orderRest, order = v :: orderRest →
        fifoStep cap page frames order =
          .ok (frames.set (frames.indexOf v) page, orderRest ++ [page], false) ∧
        frames.indexOf v < frames.length ∧
        frames[frames.indexOf v]? = some v ∧
        (∀ j, j < frames.indexOf v → frames[j]? ≠ some v)) ∧
    (∀ fr1 or1 h1, fifoStep cap page frames order = .ok (fr1, or1, h1) →
      or1.Perm fr1) := by
  refine ⟨?_, ?_, ?_, ?_⟩
  · intro h
    simp only [fifoStep, if_pos h]
  · intro h1 h2
    simp only [fifoStep, if_neg h1, if_pos h2]
  · intro h1 h2 v orderRest hord
    subst hord
    have hv : v ∈ frames := hperm.subset (List.mem_cons_self v orderRest)
    refine ⟨?_, List.indexOf_lt_length.mpr hv, List.getElem?_indexOf hv,
      fun j hj => getElem_lt_indexOf_ne v frames j hj⟩
    simp only [fifoStep, if_neg h1, if_neg h2, findIdxQ_eq_indexOf v frames hv]
  · intro fr1 or1 h1 heq
    by_cases hp : page ∈ frames
    · simp only [fifoStep, if_pos hp, Except.ok.injEq, Prod.mk.injEq] at heq
      obtain ⟨h2, h3, -⟩ := heq
      subst h2; subst h3
      exact hperm
    · by_cases hlen : (frames.length : Int) < cap
      · simp only [fifoStep, if_neg hp, if_pos hlen, Except.ok.injEq,
          Prod.mk.injEq] at heq
        obtain ⟨h2, h3, -⟩ := heq
        subst h2; subst h3
        exact hperm.append_right [page]
      · match order, hperm with
        | [], hperm => simp [fifoStep, if_neg hp, if_neg hlen] at heq
        | v :: orderRest, hperm =>
          have hv : v ∈ frames := hperm.subset (List.mem_cons_self v orderRest)
          simp only [fifoStep, if_neg hp, if_neg hlen,
            findIdxQ_eq_indexOf v frames hv, Except.ok.injEq, Prod.mk.injEq] at heq
          obtain ⟨h2, h3, -⟩ := heq
          subst h2; subst h3
          have hErase : orderRest.Perm (frames.eraseIdx (frames.indexOf v)) :=
            (hperm.trans
              (perm_cons_eraseIdx v frames _ (List.getElem?_indexOf hv))).cons_inv
          exact (List.perm_append_singleton page orderRest).trans
            ((hErase.cons page).trans
              (set_perm_cons_eraseIdx page frames _
                (List.indexOf_lt_length.mpr hv)).symm)

/-- C3, witness: concrete eviction at capacity 1. -/
theorem c3_fifo_policy_witness :
    fifoStep 1 2 [1] [1] = .ok ([2], [2], false) := by
  have h := ((c3_fifo_policy 1 2 [1] [1] (List.Perm.refl _)).2.2.1
    (by decide) (by decide) 1 [] rfl).1
  exact h

/-- Appending one reference to the prefix updates `lastRef` pointwise. -/
theorem lastRef_append (q a : Int) (pre : List Int) :
    lastRef q (pre ++ [a]) = if a = q then some (pre.length + 1) else lastRef q pre := by
  induction pre with
  | nil => by_cases h : a = q <;> simp [lastRef, h]
  | cons b pre ih =>
    show (match lastRef q (pre ++ [a]) with
      | some j => some (j + 1)
      | none => if b = q then some 1 else none) = _
    rw [ih]
    by_cases h : a = q
    · simp [h, lastRef]
    · simp only [if_neg h]
      rfl

/-- The dict write of the current step turns the `lastRef` map of the old
prefix into the `lastRef` map of the extended prefix. -/
theorem updateLu_lastRef (page : Int) (pre : List Int) :
    updateLu (fun q => lastRef q pre) page (pre.length + 1) =
      fun q => lastRef q (pre ++ [page]) := by
  funext q
  by_cases h : q = page
  · subst h
    simp [updateLu, lastRef_append]
  · have hpq : ¬ (page = q) := fun hc => h hc.symm
    simp [updateLu, h, lastRef_append, hpq]

/-- `pyMinBy` unfolds one step of the fold. -/
theorem pyMinBy_cons (key : Int → Nat) (f y : Int) (ys : List Int) :
    pyMinBy key f (y :: ys) = pyMinBy key (if key y < key f then y else f) ys := rfl

/-- The Python `min` returns a member of the scanned list. -/
theorem pyMinBy_mem (key : Int → Nat) : ∀ (fs : List Int) (f : Int),
    pyMinBy key f fs ∈ f :: fs
  | [], f => by simp [pyMinBy]
  | y :: ys, f => by
    rw [pyMinBy_cons]
    have h := pyMinBy_mem key ys (if key y < key f then y else f)
    rcases List.mem_cons.mp h with h1 | h1
    · rw [h1]
      by_cases hk : key y < key f <;> simp [hk]
    · simp [h1]

/-- The Python `min` attains the least key. -/
theorem pyMinBy_le (key : Int → Nat) : ∀ (fs : List Int) (f : Int),
    ∀ q ∈ f :: fs, key (pyMinBy key f fs) ≤ key q
  | [], f => by
    intro q hq
    rcases List.mem_cons.mp hq with h1 | h1
    · subst h1; simp [pyMinBy]
    · simp at h1
  | y :: ys, f => by
    intro q hq
    rw [pyMinBy_cons]
    have hacc_f : key (if key y < key f then y else f) ≤ key f := by
      by_cases hk : key y < key f <;> simp [hk]
      · exact le_of_lt hk
    have hacc_y : key (if key y < key f then y else f) ≤ key y := by
      by_cases hk : key y < key f <;> simp [hk]
      · exact le_of_not_lt hk
    have hmin_acc : key (pyMinBy key (if key y < key f then y else f) ys) ≤
        key (if key y < key f then y else f) :=
      pyMinBy_le key ys _ _ (List.mem_cons_self _ _)
    rcases List.mem_cons.mp hq with h1 | h1
    · subst h1; exact le_trans hmin_acc hacc_f
    rcases List.mem_cons.mp h1 with h2 | h2
    · subst h2; exact le_trans hmin_acc hacc_y
    · exact pyMinBy_le key ys _ _ (List.mem_cons_of_mem _ h2)

/-- First-match-wins shape of the Python `min`: either it is the seed, or
the tail splits around it with strictly larger keys before it. -/
theorem pyMinBy_split (key : Int → Nat) : ∀ (fs : List Int) (f : Int),
    pyMinBy key f fs = f ∨
    ∃ l₁ l₂, fs = l₁ ++ pyMinBy key f fs :: l₂ ∧
      key (pyMinBy key f fs) < key f ∧
      ∀ q ∈ l₁, key (pyMinBy key f fs) < key q
  | [], f => Or.inl rfl
  | y :: ys, f => by
    rw [pyMinBy_cons]
    by_cases hk : key y < key f
    · rw [if_pos hk]
      rcases pyMinBy_split key ys y with h | h
      · right
        exact ⟨[], ys, by simp [h], by rw [h]; exact hk, by simp⟩
      · obtain ⟨l₁, l₂, hsplit, hlt, hbefore⟩ := h
        right
        refine ⟨y :: l₁, l₂, ?_, lt_trans hlt hk, ?_⟩
        · rw [List.cons_append, ← hsplit]
        · intro q hq
          rcases List.mem_cons.mp hq with h1 | h1
          · subst h1; exact hlt
          · exact hbefore q h1
    · rw [if_neg hk]
      rcases pyMinBy_split key ys f with h | h
      · left; exact h
      · obtain ⟨l₁, l₂, hsplit, hlt, hbefore⟩ := h
        right
        refine ⟨y :: l₁, l₂, ?_, hlt, ?_⟩
        · rw [List.cons_append, ← hsplit]
        · intro q hq
          rcases List.mem_cons.mp hq with h1 | h1
          · subst h1; exact lt_of_lt_of_le hlt (le_of_not_lt hk)
          · exact hbefore q h1

/-- Index of the first occurrence of `m` after a head and a clean run. -/
theorem indexOf_cons_append (m f : Int) (l₁ l₂ : List Int) (hf : m ≠ f)
    (h1 : m ∉ l₁) : (f :: (l₁ ++ m :: l₂)).indexOf m = l₁.length + 1 := by
  have hfm : (f == m) = false := by
    have : ¬ (f = m) := fun hc => hf hc.symm
    simp [this]
  rw [List.indexOf_cons, hfm, cond_false]
  congr 1
  induction l₁ with
  | nil => simp [List.indexOf_cons]
  | cons a t ih =>
    have ham : (a == m) = false := by
      simp only [List.mem_cons, not_or] at h1
      have : ¬ (a = m) := fun hc => h1.1 hc.symm
      simp [this]
    simp only [List.cons_append, List.indexOf_cons, ham, cond_false, List.length_cons]
    rw [ih (by simp only [List.mem_cons, not_or] at h1; exact h1.2)]

/-- Every slot before the slot of the Python `min` carries a strictly
larger key: lowest-slot-index tie-breaking. -/
theorem pyMinBy_strict_before (key : Int → Nat) (fs : List Int) (f : Int) :
    ∀ j q, (f :: fs)[j]? = some q →
      j < (f :: fs).indexOf (pyMinBy key f fs) →
      key (pyMinBy key f fs) < key q := by
  intro j q hq hidx
  rcases pyMinBy_split key fs f with h | h
  · rw [h] at hidx
    simp [List.indexOf_cons] at hidx
  · obtain ⟨l₁, l₂, hsplit, hlt, hbefore⟩ := h
    obtain ⟨m, hm⟩ : ∃ m, pyMinBy key f fs = m := ⟨_, rfl⟩
    rw [hm] at hsplit hlt hbefore hidx ⊢
    have hne : m ≠ f := fun hc => absurd hlt (by rw [hc]; exact lt_irrefl _)
    have hnotmem : m ∉ l₁ := fun hc => absurd (hbefore _ hc) (lt_irrefl _)
    rw [hsplit] at hq
    rw [hsplit, indexOf_cons_append m f l₁ l₂ hne hnotmem] at hidx
    cases j with
    | zero =>
      rw [List.getElem?_cons_zero] at hq
      injection hq with hq
      subst hq
      exact hlt
    | succ j =>
      rw [List.getElem?_cons_succ] at hq
      have hjl : j < l₁.length := by omega
      rw [List.getElem?_append, if_pos hjl] at hq
      exact hbefore _ (List.getElem?_mem hq)

/-- C2: LRU bookkeeping maps every page to the step at which it was last
referenced, and is refreshed on hits, insertions and replacements alike;
on a fault with the frame set full the victim is the resident page with the
smallest last-used step, ties broken by lowest slot index, and the new page
overwrites exactly that slot. -/
theorem c2_lru_policy (cap page : Int) (pre frames : List Int) :
    (page ∈ frames →
      lruStep cap (pre.length + 1) page frames (fun q => lastRef q pre) =
        .ok (frames, fun q => lastRef q (pre ++ [page]), true)) ∧
    (page ∉ frames → (frames.length : Int) < cap →
      lruStep cap (pre.length + 1) page frames (fun q => lastRef q pre) =
        .ok (frames ++ [page], fun q => lastRef q (pre ++ [page]), false)) ∧
    (∀ f fs, frames = f :: fs → page ∉ frames → ¬ ((frames.length : Int) < cap) →
      lruStep cap (pre.length + 1) page frames (fun q => lastRef q pre) =
        .ok (frames.set
              (frames.indexOf (pyMinBy (fun p => (lastRef p pre).getD 0) f fs)) page,
             fun q => lastRef q (pre ++ [page]), false) ∧
      pyMinBy (fun p => (lastRef p pre).getD 0) f fs ∈ frames ∧
      (∀ q ∈ frames, (lastRef (pyMinBy (fun p => (lastRef p pre).getD 0) f fs) pre).getD 0 ≤
        (lastRef q pre).getD 0) ∧
      (∀ j q, frames[j]? = some q →
        j < frames.indexOf (pyMinBy (fun p => (lastRef p pre).getD 0) f fs) →
        (lastRef (pyMinBy (fun p => (lastRef p pre).getD 0) f fs) pre).getD 0 <
          (lastRef q pre).getD 0)) := by
  refine ⟨?_, ?_, ?_⟩
  · intro h
    simp only [lruStep, if_pos h, updateLu_lastRef]
  · intro h1 h2
    simp only [lruStep, if_neg h1, if_pos h2, updateLu_lastRef]
  · intro f fs hframes h1 h2
    subst hframes
    have hmem := pyMinBy_mem (fun p => (lastRef p pre).getD 0) fs f
    refine ⟨?_, hmem, ?_, ?_⟩
    · simp only [lruStep, if_neg h1, if_neg h2, updateLu_lastRef,
        findIdxQ_eq_indexOf _ _ hmem]
    · exact pyMinBy_le (fun p => (lastRef p pre).getD 0) fs f
    · exact pyMinBy_strict_before (fun p => (lastRef p pre).getD 0) fs f

/-- C2, witness: concrete eviction at capacity 1 after prefix `[1]`. -/
theorem c2_lru_policy_witness :
    lruStep 1 2 2 [1] (fun q => lastRef q [1]) =
      .ok ([2], fun q => lastRef q [1, 2], false) :=
  ((c2_lru_policy 1 2 [1] [1]).2.2 1 [] rfl (by decide) (by decide)).1

/-- A successful `getElem?` witnesses an in-bounds index. -/
theorem lt_of_getElemQ_some {l : List Int} {k : Nat} {v : Int}
    (h : l[k]? = some v) : k < l.length := by
  obtain ⟨hlt, -⟩ := List.getElem?_eq_some.mp h
  exact hlt

/-- Indexing an append inside the left part. -/
theorem getElemQ_append_left {l₁ l₂ : List Int} {j : Nat} (h : j < l₁.length) :
    (l₁ ++ l₂)[j]? = l₁[j]? := by
  rw [List.getElem?_append, if_pos h]

/-- Indexing an append at the seam. -/
theorem getElemQ_append_seam (l₁ l₂ : List Int) (p : Int) :
    (l₁ ++ p :: l₂)[l₁.length]? = some p := by
  rw [List.getElem?_append]
  simp

/-- Invariant of the victim scan of `simulate_optimal`: if the accumulator
summarizes the already-scanned slots `done` (all of which have a future
occurrence), then scanning the remaining slots `fs` yields either `-1` on
an empty frame list or a slot index satisfying `OptVictimSpec` for the
whole frame list. -/
theorem optScan_spec (reference : List Int) (i : Nat) :
    ∀ (fs done : List Int) (far vi : Int),
    (∀ (j : Nat) (q : Int), done[j]? = some q → pyIndexFrom reference q i ≠ none) →
    ((done = [] ∧ far = -1 ∧ vi = -1) ∨
      (∃ (k : Nat) (vq : Int) (nuk : Nat), vi = (k : Int) ∧ far = (nuk : Int) ∧
        done[k]? = some vq ∧
        pyIndexFrom reference vq i = some nuk ∧
        (∀ (j : Nat) (q : Int) (nuj : Nat), done[j]? = some q →
          pyIndexFrom reference q i = some nuj → nuj ≤ nuk) ∧
        (∀ (j : Nat) (q : Int) (nuj : Nat), j < k → done[j]? = some q →
          pyIndexFrom reference q i = some nuj → nuj < nuk))) →
    ((done ++ fs = [] ∧ optScan reference i fs done.length far vi = -1) ∨
      (∃ (k : Nat) (vq : Int), optScan reference i fs done.length far vi = (k : Int) ∧
        OptVictimSpec reference i (done ++ fs) k vq)) := by
  intro fs
  induction fs with
  | nil =>
    intro done far vi hsome hpre
    rcases hpre with ⟨hd, -, hvi⟩ | ⟨k, vq, nuk, hvi, -, hk, hnuk, hmax, hstrict⟩
    · left
      subst hd hvi
      exact ⟨rfl, rfl⟩
    · right
      refine ⟨k, vq, by simp [optScan, hvi], ?_, ?_, ?_, ?_⟩
      · simpa using lt_of_getElemQ_some hk
      · simpa using hk
      · intro ⟨j, q, hq, hqnone⟩
        exact absurd hqnone (hsome j q (by simpa using hq))
      · intro _
        constructor
        · intro j q hq
          obtain ⟨nuj, hnuj⟩ :=
            Option.ne_none_iff_exists'.mp (hsome j q (by simpa using hq))
          rw [hnuj, hnuk, Option.getD_some, Option.getD_some]
          exact hmax j q nuj (by simpa using hq) hnuj
        · intro j q hj hq
          obtain ⟨nuj, hnuj⟩ :=
            Option.ne_none_iff_exists'.mp (hsome j q (by simpa using hq))
          rw [hnuj, hnuk, Option.getD_some, Option.getD_some]
          exact hstrict j q nuj hj (by simpa using hq) hnuj
  | cons p rest ih =>
    intro done far vi hsome hpre
    show (_ ∨ _)
    rcases hnu : pyIndexFrom reference p i with _ | nu
    · right
      refine ⟨done.length, p, by simp [optScan, hnu], ?_, getElemQ_append_seam done rest p,
        ?_, ?_⟩
      · simp only [List.length_append, List.length_cons]
        omega
      · intro _
        refine ⟨hnu, ?_⟩
        intro j q hj hq
        rw [getElemQ_append_left hj] at hq
        exact hsome j q hq
      · intro hall
        exact absurd hnu (hall done.length p (getElemQ_append_seam done rest p))
    · have hsome1 : ∀ (j : Nat) (q : Int), (done ++ [p])[j]? = some q →
          pyIndexFrom reference q i ≠ none := by
        intro j q hq
        rcases Nat.lt_trichotomy j done.length with hj | hj | hj
        · rw [getElemQ_append_left hj] at hq
          exact hsome j q hq
        · subst hj
          rw [getElemQ_append_seam done [] p] at hq
          injection hq with hq
          subst hq
          simp [hnu]
        · rw [List.getElem?_eq_none (by simp; omega)] at hq
          exact Option.noConfusion hq
      by_cases hfar : far < (nu : Int)
      · have hmaxNew : ∀ (j : Nat) (q : Int) (nuj : Nat), (done ++ [p])[j]? = some q →
            pyIndexFrom reference q i = some nuj → nuj ≤ nu := by
          intro j q nuj hq hnuj
          rcases Nat.lt_trichotomy j done.length with hj | hj | hj
          · rw [getElemQ_append_left hj] at hq
            rcases hpre with ⟨hd, -, -⟩ | ⟨k0, vq0, nuk0, -, hfar0, hk0, hnuk0, hmax0, -⟩
            · subst hd
              simp at hq
            · subst hfar0
              have h1 := hmax0 j q nuj hq hnuj
              have h2 : (nuj : Int) ≤ (nuk0 : Int) := by exact_mod_cast h1
              omega
          · subst hj
            rw [getElemQ_append_seam done [] p] at hq
            injection hq with hq
            subst hq
            rw [hnu] at hnuj
            injection hnuj with hnuj
            omega
          · rw [List.getElem?_eq_none (by simp; omega)] at hq
            exact Option.noConfusion hq
        have hstrictNew : ∀ (j : Nat) (q : Int) (nuj : Nat), j < done.length →
            (done ++ [p])[j]? = some q → pyIndexFrom reference q i = some nuj →
            nuj < nu := by
          intro j q nuj hj hq hnuj
          rw [getElemQ_append_left hj] at hq
          rcases hpre with ⟨hd, -, -⟩ | ⟨k0, vq0, nuk0, -, hfar0, hk0, hnuk0, hmax0, -⟩
          · subst hd
            simp at hq
          · subst hfar0
            have h1 := hmax0 j q nuj hq hnuj
            have h2 : (nuj : Int) ≤ (nuk0 : Int) := by exact_mod_cast h1
            omega
        have hres := ih (done ++ [p]) (nu : Int) (done.length : Int) hsome1
          (Or.inr ⟨done.length, p, nu, rfl, rfl, getElemQ_append_seam done [] p,
            hnu, hmaxNew, hstrictNew⟩)
        simp only [List.length_append, List.length_cons, List.length_nil,
          List.append_assoc, List.singleton_append] at hres
        simpa [optScan, hnu, if_pos hfar] using hres
      · rcases hpre with ⟨-, hfarv, -⟩ | ⟨k0, vq0, nuk0, hvi0, hfar0, hk0, hnuk0, hmax0, hstrict0⟩
        · exact absurd (by subst hfarv; omega : far < (nu : Int)) hfar
        · have hk0lt : k0 < done.length := lt_of_getElemQ_some hk0
          have hmaxNew : ∀ (j : Nat) (q : Int) (nuj : Nat), (done ++ [p])[j]? = some q →
              pyIndexFrom reference q i = some nuj → nuj ≤ nuk0 := by
            intro j q nuj hq hnuj
            rcases Nat.lt_trichotomy j done.length with hj | hj | hj
            · rw [getElemQ_append_left hj] at hq
              exact hmax0 j q nuj hq hnuj
            · subst hj
              rw [getElemQ_append_seam done [] p] at hq
              injection hq with hq
              subst hq
              rw [hnu] at hnuj
              injection hnuj with hnuj
              subst hnuj
              subst hfar0
              omega
            · rw [List.getElem?_eq_none (by simp; omega)] at hq
              exact Option.noConfusion hq
          have hstrictNew : ∀ (j : Nat) (q : Int) (nuj : Nat), j < k0 →
              (done ++ [p])[j]? = some q → pyIndexFrom reference q i = some nuj →
              nuj < nuk0 := by
            intro j q nuj hj hq hnuj
            have hjd : j < done.length := lt_trans hj hk0lt
            rw [getElemQ_append_left hjd] at hq
            exact hstrict0 j q nuj hj hq hnuj
          have hres := ih (done ++ [p]) far vi hsome1
            (Or.inr ⟨k0, vq0, nuk0, hvi0, hfar0,
              (by rw [getElemQ_append_left hk0lt]; exact hk0), hnuk0,
              hmaxNew, hstrictNew⟩)
          simp only [List.length_append, List.length_cons, List.length_nil,
            List.append_assoc, List.singleton_append] at hres
          simpa [optScan, hnu, if_neg hfar] using hres

/-- On a fault with the frame set full, `optStep` overwrites a slot
satisfying the victim characterization. -/
theorem optStep_full_spec (reference : List Int) (cap : Int) (i : Nat)
    (page : Int) (frames : List Int) (h1 : page ∉ frames)
    (h2 : ¬ ((frames.length : Int) < cap)) (hne : frames ≠ []) :
    ∃ k vq, OptVictimSpec reference i frames k vq ∧
      optStep reference cap i page frames = .ok (frames.set k page, false) := by
  have hscan := optScan_spec reference i frames [] (-1) (-1) (by simp)
    (Or.inl ⟨rfl, rfl, rfl⟩)
  simp only [List.nil_append, List.length_nil] at hscan
  rcases hscan with ⟨hemp, -⟩ | ⟨k, vq, hres, hspec⟩
  · exact absurd hemp hne
  · refine ⟨k, vq, hspec, ?_⟩
    have hklen : k < frames.length := hspec.1
    simp only [optStep, if_neg h1, if_neg h2, hres]
    rw [if_neg (by omega : ¬ ((k : Int) = -1))]
    rw [if_pos (by simpa using hklen : (k : Int).toNat < frames.length)]
    simp

/-- `optStep` on a hit. -/
theorem optStep_eq_hit (reference : List Int) (cap : Int) (i : Nat) (page : Int)
    (frames : List Int) (hp : page ∈ frames) :
    optStep reference cap i page frames = .ok (frames, true) := by
  simp [optStep, hp]

/-- `optStep` on a fault with spare capacity. -/
theorem optStep_eq_insert (reference : List Int) (cap : Int) (i : Nat) (page : Int)
    (frames : List Int) (hp : page ∉ frames)
    (hlt : (frames.length : Int) < cap) :
    optStep reference cap i page frames = .ok (frames ++ [page], false) := by
  simp [optStep, hp, hlt]

/-- C1: on every fault of `simulate_optimal` with the frame set full, the
victim slot satisfies the spec rule: a resident page with no occurrence at
or after the current position is an immediate victim (first such slot in
scan order wins); otherwise the victim is the slot whose page has the
largest next-occurrence index, ties broken by lowest slot index; the new
page overwrites exactly that slot. -/
theorem c1_optimal_victim (reference : List Int) (cap : Int) (i : Nat)
    (page : Int) (frames : List Int) (h1 : page ∉ frames)
    (h2 : ¬ ((frames.length : Int) < cap)) (hne : frames ≠ []) :
    ∃ k vq, OptVictimSpec reference i frames k vq ∧
      optStep reference cap i page frames = .ok (frames.set k page, false) :=
  optStep_full_spec reference cap i page frames h1 h2 hne

/-- C1, witness: a concrete full-frames fault where page 1 (never used
again) is evicted from slot 0. -/
theorem c1_optimal_victim_witness :
    optStep [1, 2, 3] 2 2 3 [1, 2] = .ok ([3, 2], false) := by
  obtain ⟨k, vq, hspec, heq⟩ := c1_optimal_victim [1, 2, 3] 2 2 3 [1, 2]
    (by decide) (by decide) (by decide)
  have hk : k < 2 := by simpa using hspec.1
  have hfirst := hspec.2.2.1 ⟨0, 1, by decide, by decide⟩
  match k, hk with
  | 0, _ => exact heq
  | 1, _ =>
    exact absurd (by decide : pyIndexFrom [1, 2, 3] (1 : Int) 2 = none)
      (hfirst.2 0 1 (by omega) (by decide))

/-- Evicting the queue front and writing the new page into its slot keeps
the queue a permutation of the frame list. -/
theorem perm_evict (page v : Int) (frames orderRest : List Int)
    (hperm : (v :: orderRest).Perm frames) :
    (orderRest ++ [page]).Perm (frames.set (frames.indexOf v) page) := by
  have hv : v ∈ frames := hperm.subset (List.mem_cons_self v orderRest)
  have hErase : orderRest.Perm (frames.eraseIdx (frames.indexOf v)) :=
    (hperm.trans (perm_cons_eraseIdx v frames _ (List.getElem?_indexOf hv))).cons_inv
  exact (List.perm_append_singleton page orderRest).trans
    ((hErase.cons page).trans
      (set_perm_cons_eraseIdx page frames _ (List.indexOf_lt_length.mpr hv)).symm)

/-- A nonpositive-length contradiction helper for full frame sets. -/
theorem frames_ne_nil_of_full {frames : List Int} {cap : Int} (hcap : 1 ≤ cap)
    (hfull : ¬ ((frames.length : Int) < cap)) : frames ≠ [] := by
  intro hc
  subst hc
  simp at hfull
  omega

/-- The FIFO loop never raises for capacity ≥ 1 and preserves the frame
invariants: every recorded snapshot is duplicate-free and no longer than
the capacity. -/
theorem fifoGo_ok (cap : Int) (hcap : 1 ≤ cap) :
    ∀ (rest : List Int) (i : Nat) (frames order : List Int),
    frames.Nodup → (frames.length : Int) ≤ cap → order.Perm frames →
    ∃ steps faults, fifoGo cap i rest frames order = .ok (steps, faults) ∧
      steps.length = rest.length ∧
      ∀ s ∈ steps, s.frames.Nodup ∧ (s.frames.length : Int) ≤ cap := by
  intro rest
  induction rest with
  | nil =>
    intro i frames order hnd hlen hperm
    exact ⟨[], 0, rfl, rfl, by simp⟩
  | cons page rest ih =>
    intro i frames order hnd hlen hperm
    by_cases hp : page ∈ frames
    · obtain ⟨steps, faults, hgo, hsl, hprop⟩ := ih (i + 1) frames order hnd hlen hperm
      refine ⟨⟨i, page, frames, true⟩ :: steps, faults, ?_, by simp [hsl], ?_⟩
      · simp only [fifoGo, fifoStep, if_pos hp, hgo]
        simp
      · intro s hs
        rcases List.mem_cons.mp hs with h | h
        · subst h; exact ⟨hnd, hlen⟩
        · exact hprop s h
    · by_cases hlt : (frames.length : Int) < cap
      · have hnd1 : (frames ++ [page]).Nodup := by
          simp [List.nodup_append, hnd, hp]
        have hlen1 : ((frames ++ [page]).length : Int) ≤ cap := by
          simp only [List.length_append, List.length_cons, List.length_nil]
          push_cast
          omega
        obtain ⟨steps, faults, hgo, hsl, hprop⟩ := ih (i + 1) (frames ++ [page])
          (order ++ [page]) hnd1 hlen1 (hperm.append_right [page])
        refine ⟨⟨i, page, frames ++ [page], false⟩ :: steps, 1 + faults, ?_,
          by simp [hsl], ?_⟩
        · simp only [fifoGo, fifoStep, if_neg hp, if_pos hlt, hgo]
          simp
        · intro s hs
          rcases List.mem_cons.mp hs with h | h
          · subst h; exact ⟨hnd1, hlen1⟩
          · exact hprop s h
      · have hne := frames_ne_nil_of_full hcap hlt
        match order, hperm with
        | [], hperm => exact absurd hperm.symm.eq_nil hne
        | v :: orderRest, hperm =>
          have hv : v ∈ frames := hperm.subset (List.mem_cons_self v orderRest)
          have hnd1 : (frames.set (frames.indexOf v) page).Nodup := hnd.set hp
          have hlen1 : ((frames.set (frames.indexOf v) page).length : Int) ≤ cap := by
            simpa using hlen
          obtain ⟨steps, faults, hgo, hsl, hprop⟩ := ih (i + 1)
            (frames.set (frames.indexOf v) page) (orderRest ++ [page]) hnd1 hlen1
            (perm_evict page v frames orderRest hperm)
          refine ⟨⟨i, page, frames.set (frames.indexOf v) page, false⟩ :: steps,
            1 + faults, ?_, by simp [hsl], ?_⟩
          · simp only [fifoGo, fifoStep, if_neg hp, if_neg hlt,
              findIdxQ_eq_indexOf v frames hv, hgo]
            simp
          · intro s hs
            rcases List.mem_cons.mp hs with h | h
            · subst h; exact ⟨hnd1, hlen1⟩
            · exact hprop s h

/-- The LRU loop never raises for capacity ≥ 1 and preserves the frame
invariants. -/
theorem lruGo_ok (cap : Int) (hcap : 1 ≤ cap) :
    ∀ (rest : List Int) (i : Nat) (frames : List Int) (lu : Int → Option Nat),
    frames.Nodup → (frames.length : Int) ≤ cap →
    ∃ steps faults, lruGo cap i rest frames lu = .ok (steps, faults) ∧
      steps.length = rest.length ∧
      ∀ s ∈ steps, s.frames.Nodup ∧ (s.frames.length : Int) ≤ cap := by
  intro rest
  induction rest with
  | nil =>
    intro i frames lu hnd hlen
    exact ⟨[], 0, rfl, rfl, by simp⟩
  | cons page rest ih =>
    intro i frames lu hnd hlen
    by_cases hp : page ∈ frames
    · obtain ⟨steps, faults, hgo, hsl, hprop⟩ := ih (i + 1) frames
        (updateLu lu page i) hnd hlen
      refine ⟨⟨i, page, frames, true⟩ :: steps, faults, ?_, by simp [hsl], ?_⟩
      · simp only [lruGo, lruStep, if_pos hp, hgo]
        simp
      · intro s hs
        rcases List.mem_cons.mp hs with h | h
        · subst h; exact ⟨hnd, hlen⟩
        · exact hprop s h
    · by_cases hlt : (frames.length : Int) < cap
      · have hnd1 : (frames ++ [page]).Nodup := by
          simp [List.nodup_append, hnd, hp]
        have hlen1 : ((frames ++ [page]).length : Int) ≤ cap := by
          simp only [List.length_append, List.length_cons, List.length_nil]
          push_cast
          omega
        obtain ⟨steps, faults, hgo, hsl, hprop⟩ := ih (i + 1) (frames ++ [page])
          (updateLu lu page i) hnd1 hlen1
        refine ⟨⟨i, page, frames ++ [page], false⟩ :: steps, 1 + faults, ?_,
          by simp [hsl], ?_⟩
        · simp only [lruGo, lruStep, if_neg hp, if_pos hlt, hgo]
          simp
        · intro s hs
          rcases List.mem_cons.mp hs with h | h
          · subst h; exact ⟨hnd1, hlen1⟩
          · exact hprop s h
      · have hne := frames_ne_nil_of_full hcap hlt
        match frames, hnd, hlen, hp, hlt, hne with
        | f :: fs, hnd, hlen, hp, hlt, hne =>
          have hm := pyMinBy_mem (fun p => (lu p).getD 0) fs f
          have hnd1 : ((f :: fs).set ((f :: fs).indexOf
              (pyMinBy (fun p => (lu p).getD 0) f fs)) page).Nodup := hnd.set hp
          have hlen1 : (((f :: fs).set ((f :: fs).indexOf
              (pyMinBy (fun p => (lu p).getD 0) f fs)) page).length : Int) ≤ cap := by
            simpa using hlen
          obtain ⟨steps, faults, hgo, hsl, hprop⟩ := ih (i + 1) _
            (updateLu lu page i) hnd1 hlen1
          refine ⟨⟨i, page, (f :: fs).set ((f :: fs).indexOf
              (pyMinBy (fun p => (lu p).getD 0) f fs)) page, false⟩ :: steps,
            1 + faults, ?_, by simp [hsl], ?_⟩
          · simp only [lruGo, lruStep, if_neg hp, if_neg hlt,
              findIdxQ_eq_indexOf _ _ hm, hgo]
            simp
          · intro s hs
            rcases List.mem_cons.mp hs with h | h
            · subst h; exact ⟨hnd1, hlen1⟩
            · exact hprop s h

/-- The Optimal loop never raises for capacity ≥ 1 and preserves the frame
invariants. -/
theorem optGo_ok (reference : List Int) (cap : Int) (hcap : 1 ≤ cap) :
    ∀ (rest : List Int) (i : Nat) (frames : List Int),
    frames.Nodup → (frames.length : Int) ≤ cap →
    ∃ steps faults, optGo reference cap i rest frames = .ok (steps, faults) ∧
      steps.length = rest.length ∧
      ∀ s ∈ steps, s.frames.Nodup ∧ (s.frames.length : Int) ≤ cap := by
  intro rest
  induction rest with
  | nil =>
    intro i frames hnd hlen
    exact ⟨[], 0, rfl, rfl, by simp⟩
  | cons page rest ih =>
    intro i frames hnd hlen
    by_cases hp : page ∈ frames
    · obtain ⟨steps, faults, hgo, hsl, hprop⟩ := ih (i + 1) frames hnd hlen
      refine ⟨⟨i, page, frames, true⟩ :: steps, faults, ?_, by simp [hsl], ?_⟩
      · simp only [optGo, optStep, if_pos hp, hgo]
        simp
      · intro s hs
        rcases List.mem_cons.mp hs with h | h
        · subst h; exact ⟨hnd, hlen⟩
        · exact hprop s h
    · by_cases hlt : (frames.length : Int) < cap
      · have hnd1 : (frames ++ [page]).Nodup := by
          simp [List.nodup_append, hnd, hp]
        have hlen1 : ((frames ++ [page]).length : Int) ≤ cap := by
          simp only [List.length_append, List.length_cons, List.length_nil]
          push_cast
          omega
        obtain ⟨steps, faults, hgo, hsl, hprop⟩ := ih (i + 1) (frames ++ [page])
          hnd1 hlen1
        refine ⟨⟨i, page, frames ++ [page], false⟩ :: steps, 1 + faults, ?_,
          by simp [hsl], ?_⟩
        · simp only [optGo, optStep, if_neg hp, if_pos hlt, hgo]
          simp
        · intro s hs
          rcases List.mem_cons.mp hs with h | h
          · subst h; exact ⟨hnd1, hlen1⟩
          · exact hprop s h
      · have hne := frames_ne_nil_of_full hcap hlt
        have hscan := optScan_spec reference i frames [] (-1) (-1) (by simp)
          (Or.inl ⟨rfl, rfl, rfl⟩)
        simp only [List.nil_append, List.length_nil] at hscan
        rcases hscan with ⟨hemp, -⟩ | ⟨k, vq, hres, hspec⟩
        · exact absurd hemp hne
        · have hklen : k < frames.length := hspec.1
          have hnd1 : (frames.set k page).Nodup := hnd.set hp
          have hlen1 : ((frames.set k page).length : Int) ≤ cap := by simpa using hlen
          obtain ⟨steps, faults, hgo, hsl, hprop⟩ := ih (i + 1) (frames.set k page)
            hnd1 hlen1
          refine ⟨⟨i, page, frames.set k page, false⟩ :: steps, 1 + faults, ?_,
            by simp [hsl], ?_⟩
          · simp only [optGo, optStep, if_neg hp, if_neg hlt, hres]
            rw [if_neg (by omega : ¬ ((k : Int) = -1))]
            rw [if_pos (by simpa using hklen : (k : Int).toNat < frames.length)]
            simp only [Int.toNat_natCast, hgo]
            simp
          · intro s hs
            rcases List.mem_cons.mp hs with h | h
            · subst h; exact ⟨hnd1, hlen1⟩
            · exact hprop s h

/-- A successful FIFO step only adds the referenced page. -/
theorem fifoStep_frames_sub {cap page : Int} {frames order frames1 order1 : List Int}
    {hit : Bool} (h : fifoStep cap page frames order = .ok (frames1, order1, hit)) :
    ∀ x ∈ frames1, x ∈ frames ∨ x = page := by
  unfold fifoStep at h
  split at h
  · simp only [Except.ok.injEq, Prod.mk.injEq] at h
    obtain ⟨h1, -, -⟩ := h
    subst h1
    exact fun x hx => Or.inl hx
  · split at h
    · simp only [Except.ok.injEq, Prod.mk.injEq] at h
      obtain ⟨h1, -, -⟩ := h
      subst h1
      intro x hx
      rcases List.mem_append.mp hx with h2 | h2
      · exact Or.inl h2
      · simp at h2
        exact Or.inr h2
    · split at h
      · exact Except.noConfusion h
      · split at h
        · exact Except.noConfusion h
        · simp only [Except.ok.injEq, Prod.mk.injEq] at h
          obtain ⟨h1, -, -⟩ := h
          subst h1
          exact fun x hx => List.mem_or_eq_of_mem_set hx

/-- A FIFO step on a non-resident page reports a fault. -/
theorem fifoStep_miss {cap page : Int} {frames order frames1 order1 : List Int}
    {hit : Bool} (hp : page ∉ frames)
    (h : fifoStep cap page frames order = .ok (frames1, order1, hit)) :
    hit = false := by
  unfold fifoStep at h
  rw [if_neg hp] at h
  split at h
  · simp only [Except.ok.injEq, Prod.mk.injEq] at h
    exact h.2.2.symm
  · split at h
    · exact Except.noConfusion h
    · split at h
      · exact Except.noConfusion h
      · simp only [Except.ok.injEq, Prod.mk.injEq] at h
        exact h.2.2.symm

/-- A successful LRU step only adds the referenced page. -/
theorem lruStep_frames_sub {cap page : Int} {i : Nat} {frames frames1 : List Int}
    {lu lu1 : Int → Option Nat} {hit : Bool}
    (h : lruStep cap i page frames lu = .ok (frames1, lu1, hit)) :
    ∀ x ∈ frames1, x ∈ frames ∨ x = page := by
  unfold lruStep at h
  split at h
  · simp only [Except.ok.injEq, Prod.mk.injEq] at h
    obtain ⟨h1, -, -⟩ := h
    subst h1
    exact fun x hx => Or.inl hx
  · split at h
    · simp only [Except.ok.injEq, Prod.mk.injEq] at h
      obtain ⟨h1, -, -⟩ := h
      subst h1
      intro x hx
      rcases List.mem_append.mp hx with h2 | h2
      · exact Or.inl h2
      · simp at h2
        exact Or.inr h2
    · split at h
      · exact Except.noConfusion h
      · dsimp only at h
        split at h
        · exact Except.noConfusion h
        · simp only [Except.ok.injEq, Prod.mk.injEq] at h
          obtain ⟨h1, -, -⟩ := h
          subst h1
          exact fun x hx => List.mem_or_eq_of_mem_set hx

/-- An LRU step on a non-resident page reports a fault. -/
theorem lruStep_miss {cap page : Int} {i : Nat} {frames frames1 : List Int}
    {lu lu1 : Int → Option Nat} {hit : Bool} (hp : page ∉ frames)
    (h : lruStep cap i page frames lu = .ok (frames1, lu1, hit)) :
    hit = false := by
  unfold lruStep at h
  rw [if_neg hp] at h
  split at h
  · simp only [Except.ok.injEq, Prod.mk.injEq] at h
    exact h.2.2.symm
  · split at h
    · exact Except.noConfusion h
    · dsimp only at h
      split at h
      · exact Except.noConfusion h
      · simp only [Except.ok.injEq, Prod.mk.injEq] at h
        exact h.2.2.symm

/-- A successful Optimal step only adds the referenced page. -/
theorem optStep_frames_sub {reference : List Int} {cap page : Int} {i : Nat}
    {frames frames1 : List Int} {hit : Bool}
    (h : optStep reference cap i page frames = .ok (frames1, hit)) :
    ∀ x ∈ frames1, x ∈ frames ∨ x = page := by
  unfold optStep at h
  split at h
  · simp only [Except.ok.injEq, Prod.mk.injEq] at h
    obtain ⟨h1, -⟩ := h
    subst h1
    exact fun x hx => Or.inl hx
  · split at h
    · simp only [Except.ok.injEq, Prod.mk.injEq] at h
      obtain ⟨h1, -⟩ := h
      subst h1
      intro x hx
      rcases List.mem_append.mp hx with h2 | h2
      · exact Or.inl h2
      · simp at h2
        exact Or.inr h2
    · dsimp only at h
      split at h
      · split at h
        · simp only [Except.ok.injEq, Prod.mk.injEq] at h
          obtain ⟨h1, -⟩ := h
          subst h1
          exact fun x hx => List.mem_or_eq_of_mem_set hx
        · exact Except.noConfusion h
      · split at h
        · simp only [Except.ok.injEq, Prod.mk.injEq] at h
          obtain ⟨h1, -⟩ := h
          subst h1
          exact fun x hx => List.mem_or_eq_of_mem_set hx
        · exact Except.noConfusion h

/-- An Optimal step on a non-resident page reports a fault. -/
theorem optStep_miss {reference : List Int} {cap page : Int} {i : Nat}
    {frames frames1 : List Int} {hit : Bool} (hp : page ∉ frames)
    (h : optStep reference cap i page frames = .ok (frames1, hit)) :
    hit = false := by
  unfold optStep at h
  rw [if_neg hp] at h
  split at h
  · simp only [Except.ok.injEq, Prod.mk.injEq] at h
    exact h.2.symm
  · dsimp only at h
    split at h
    · split at h
      · simp only [Except.ok.injEq, Prod.mk.injEq] at h
        exact h.2.symm
      · exact Except.noConfusion h
    · split at h
      · simp only [Except.ok.injEq, Prod.mk.injEq] at h
        exact h.2.symm
      · exact Except.noConfusion h

/-- FIFO records a fault at every position whose page is neither resident
at entry (all residents being previously seen) nor referenced earlier in
the remaining stretch. -/
theorem fifoGo_first_fault (cap : Int) :
    ∀ (rest seen : List Int) (i : Nat) (frames order : List Int)
      (steps : List StepResult) (faults : Nat),
    (∀ q ∈ frames, q ∈ seen) →
    fifoGo cap i rest frames order = .ok (steps, faults) →
    ∀ (j : Nat) (q : Int), rest[j]? = some q → q ∉ seen → q ∉ rest.take j →
      (steps[j]?).map StepResult.is_hit = some false := by
  intro rest
  induction rest with
  | nil =>
    intro seen i frames order steps faults hsub hgo j q hq
    simp at hq
  | cons page rest ih =>
    intro seen i frames order steps faults hsub hgo j q hq hqs hqt
    simp only [fifoGo] at hgo
    rcases hstep : fifoStep cap page frames order with e | ⟨frames1, order1, hit⟩
    · rw [hstep] at hgo
      exact absurd hgo (by simp)
    · rw [hstep] at hgo
      dsimp only at hgo
      rcases hgo2 : fifoGo cap (i + 1) rest frames1 order1 with e2 | ⟨steps1, faults1⟩
      · rw [hgo2] at hgo
        exact absurd hgo (by simp)
      · rw [hgo2] at hgo
        simp only [Except.ok.injEq, Prod.mk.injEq] at hgo
        obtain ⟨hsteps, -⟩ := hgo
        subst hsteps
        cases j with
        | zero =>
          rw [List.getElem?_cons_zero] at hq
          injection hq with hq
          subst hq
          have hp : page ∉ frames := fun hc => hqs (hsub page hc)
          rw [fifoStep_miss hp hstep]
          simp
        | succ j =>
          rw [List.getElem?_cons_succ] at hq ⊢
          have hqt1 : q ∉ rest.take j := by
            intro hc
            exact hqt (by simp [List.take_succ_cons, hc])
          have hqs1 : q ∉ seen ++ [page] := by
            intro hc
            rcases List.mem_append.mp hc with h2 | h2
            · exact hqs h2
            · simp at h2
              exact hqt (by simp [List.take_succ_cons, h2])
          exact ih (seen ++ [page]) (i + 1) frames1 order1 steps1 faults1
            (fun x hx => by
              rcases fifoStep_frames_sub hstep x hx with h2 | h2
              · exact List.mem_append.mpr (Or.inl (hsub x h2))
              · exact List.mem_append.mpr (Or.inr (by simp [h2])))
            hgo2 j q hq hqs1 hqt1

/-- LRU records a fault at every first access, in the same sense. -/
theorem lruGo_first_fault (cap : Int) :
    ∀ (rest seen : List Int) (i : Nat) (frames : List Int) (lu : Int → Option Nat)
      (steps : List StepResult) (faults : Nat),
    (∀ q ∈ frames, q ∈ seen) →
    lruGo cap i rest frames lu = .ok (steps, faults) →
    ∀ (j : Nat) (q : Int), rest[j]? = some q → q ∉ seen → q ∉ rest.take j →
      (steps[j]?).map StepResult.is_hit = some false := by
  intro rest
  induction rest with
  | nil =>
    intro seen i frames lu steps faults hsub hgo j q hq
    simp at hq
  | cons page rest ih =>
    intro seen i frames lu steps faults hsub hgo j q hq hqs hqt
    simp only [lruGo] at hgo
    rcases hstep : lruStep cap i page frames lu with e | ⟨frames1, lu1, hit⟩
    · rw [hstep] at hgo
      exact absurd hgo (by simp)
    · rw [hstep] at hgo
      dsimp only at hgo
      rcases hgo2 : lruGo cap (i + 1) rest frames1 lu1 with e2 | ⟨steps1, faults1⟩
      · rw [hgo2] at hgo
        exact absurd hgo (by simp)
      · rw [hgo2] at hgo
        simp only [Except.ok.injEq, Prod.mk.injEq] at hgo
        obtain ⟨hsteps, -⟩ := hgo
        subst hsteps
        cases j with
        | zero =>
          rw [List.getElem?_cons_zero] at hq
          injection hq with hq
          subst hq
          have hp : page ∉ frames := fun hc => hqs (hsub page hc)
          rw [lruStep_miss hp hstep]
          simp
        | succ j =>
          rw [List.getElem?_cons_succ] at hq ⊢
          have hqt1 : q ∉ rest.take j := by
            intro hc
            exact hqt (by simp [List.take_succ_cons, hc])
          have hqs1 : q ∉ seen ++ [page] := by
            intro hc
            rcases List.mem_append.mp hc with h2 | h2
            · exact hqs h2
            · simp at h2
              exact hqt (by simp [List.take_succ_cons, h2])
          exact ih (seen ++ [page]) (i + 1) frames1 lu1 steps1 faults1
            (fun x hx => by
              rcases lruStep_frames_sub hstep x hx with h2 | h2
              · exact List.mem_append.mpr (Or.inl (hsub x h2))
              · exact List.mem_append.mpr (Or.inr (by simp [h2])))
            hgo2 j q hq hqs1 hqt1

/-- Optimal records a fault at every first access, in the same sense. -/
theorem optGo_first_fault (reference : List Int) (cap : Int) :
    ∀ (rest seen : List Int) (i : Nat) (frames : List Int)
      (steps : List StepResult) (faults : Nat),
    (∀ q ∈ frames, q ∈ seen) →
    optGo reference cap i rest frames = .ok (steps, faults) →
    ∀ (j : Nat) (q : Int), rest[j]? = some q → q ∉ seen → q ∉ rest.take j →
      (steps[j]?).map StepResult.is_hit = some false := by
  intro rest
  induction rest with
  | nil =>
    intro seen i frames steps faults hsub hgo j q hq
    simp at hq
  | cons page rest ih =>
    intro seen i frames steps faults hsub hgo j q hq hqs hqt
    simp only [optGo] at hgo
    rcases hstep : optStep reference cap i page frames with e | ⟨frames1, hit⟩
    · rw [hstep] at hgo
      exact absurd hgo (by simp)
    · rw [hstep] at hgo
      dsimp only at hgo
      rcases hgo2 : optGo reference cap (i + 1) rest frames1 with e2 | ⟨steps1, faults1⟩
      · rw [hgo2] at hgo
        exact absurd hgo (by simp)
      · rw [hgo2] at hgo
        simp only [Except.ok.injEq, Prod.mk.injEq] at hgo
        obtain ⟨hsteps, -⟩ := hgo
        subst hsteps
        cases j with
        | zero =>
          rw [List.getElem?_cons_zero] at hq
          injection hq with hq
          subst hq
          have hp : page ∉ frames := fun hc => hqs (hsub page hc)
          rw [optStep_miss hp hstep]
          simp
        | succ j =>
          rw [List.getElem?_cons_succ] at hq ⊢
          have hqt1 : q ∉ rest.take j := by
            intro hc
            exact hqt (by simp [List.take_succ_cons, hc])
          have hqs1 : q ∉ seen ++ [page] := by
            intro hc
            rcases List.mem_append.mp hc with h2 | h2
            · exact hqs h2
            · simp at h2
              exact hqt (by simp [List.take_succ_cons, h2])
          exact ih (seen ++ [page]) (i + 1) frames1 steps1 faults1
            (fun x hx => by
              rcases optStep_frames_sub hstep x hx with h2 | h2
              · exact List.mem_append.mpr (Or.inl (hsub x h2))
              · exact List.mem_append.mpr (Or.inr (by simp [h2])))
            hgo2 j q hq hqs1 hqt1

/-- C7: for every capacity ≥ 1, every frames snapshot recorded by any of
the three algorithms is duplicate-free and no longer than the capacity. -/
theorem c7_snapshot_invariants (reference : List Int) (c : Int) (hc : 1 ≤ c) :
    (∀ r, simulate_fifo reference c = .ok r →
      ∀ s ∈ r.steps, s.frames.Nodup ∧ (s.frames.length : Int) ≤ c) ∧
    (∀ r, simulate_lru reference c = .ok r →
      ∀ s ∈ r.steps, s.frames.Nodup ∧ (s.frames.length : Int) ≤ c) ∧
    (∀ r, simulate_optimal reference c = .ok r →
      ∀ s ∈ r.steps, s.frames.Nodup ∧ (s.frames.length : Int) ≤ c) := by
  refine ⟨?_, ?_, ?_⟩
  · intro r heq
    obtain ⟨steps, faults, hgo, -, hprop⟩ := fifoGo_ok c hc reference 1 [] []
      (by simp) (by simp; omega) (List.Perm.refl _)
    simp only [simulate_fifo, hgo, Except.ok.injEq] at heq
    subst heq
    exact hprop
  · intro r heq
    obtain ⟨steps, faults, hgo, -, hprop⟩ := lruGo_ok c hc reference 1 []
      (fun _ => none) (by simp) (by simp; omega)
    simp only [simulate_lru, hgo, Except.ok.injEq] at heq
    subst heq
    exact hprop
  · intro r heq
    obtain ⟨steps, faults, hgo, -, hprop⟩ := optGo_ok reference c hc reference 1 []
      (by simp) (by simp; omega)
    simp only [simulate_optimal, hgo, Except.ok.injEq] at heq
    subst heq
    exact hprop

/-- C7, witness: a concrete snapshot from a capacity-1 FIFO run. -/
theorem c7_snapshot_invariants_witness :
    (StepResult.frames ⟨2, 2, [2], false⟩).Nodup ∧
    ((StepResult.frames ⟨2, 2, [2], false⟩).length : Int) ≤ 1 :=
  (c7_snapshot_invariants [1, 2] 1 (by norm_num)).1
    ⟨"FIFO", [⟨1, 1, [1], false⟩, ⟨2, 2, [2], false⟩], 2⟩ rfl
    ⟨2, 2, [2], false⟩ (by decide)

/-- C8: for every capacity ≥ 1, any position whose page does not occur
earlier in the reference sequence is classified as a fault by all three
algorithms: no page is a hit before it has first been loaded. -/
theorem c8_first_access_faults (reference : List Int) (c : Int) (hc : 1 ≤ c) :
    (∀ r, simulate_fifo reference c = .ok r →
      ∀ (j : Nat) (q : Int), reference[j]? = some q → q ∉ reference.take j →
        (r.steps[j]?).map StepResult.is_hit = some false) ∧
    (∀ r, simulate_lru reference c = .ok r →
      ∀ (j : Nat) (q : Int), reference[j]? = some q → q ∉ reference.take j →
        (r.steps[j]?).map StepResult.is_hit = some false) ∧
    (∀ r, simulate_optimal reference c = .ok r →
      ∀ (j : Nat) (q : Int), reference[j]? = some q → q ∉ reference.take j →
        (r.steps[j]?).map StepResult.is_hit = some false) := by
  refine ⟨?_, ?_, ?_⟩
  · intro r heq j q hq hqt
    rcases hgo : fifoGo c 1 reference [] [] with e | ⟨steps, faults⟩
    · rw [simulate_fifo, hgo] at heq
      exact absurd heq (by simp)
    · rw [simulate_fifo, hgo] at heq
      simp only [Except.ok.injEq] at heq
      subst heq
      exact fifoGo_first_fault c reference [] 1 [] [] steps faults (by simp)
        hgo j q hq (by simp) hqt
  · intro r heq j q hq hqt
    rcases hgo : lruGo c 1 reference [] (fun _ => none) with e | ⟨steps, faults⟩
    · rw [simulate_lru, hgo] at heq
      exact absurd heq (by simp)
    · rw [simulate_lru, hgo] at heq
      simp only [Except.ok.injEq] at heq
      subst heq
      exact lruGo_first_fault c reference [] 1 [] (fun _ => none) steps faults
        (by simp) hgo j q hq (by simp) hqt
  · intro r heq j q hq hqt
    rcases hgo : optGo reference c 1 reference [] with e | ⟨steps, faults⟩
    · rw [simulate_optimal, hgo] at heq
      exact absurd heq (by simp)
    · rw [simulate_optimal, hgo] at heq
      simp only [Except.ok.injEq] at heq
      subst heq
      exact optGo_first_fault reference c reference [] 1 [] steps faults
        (by simp) hgo j q hq (by simp) hqt

/-- C8, witness: the second access of `[1, 2]` at capacity 1 is a fault
for FIFO. -/
theorem c8_first_access_faults_witness :
    (Option.map StepResult.is_hit
      ((AlgorithmResult.steps
        ⟨"FIFO", [⟨1, 1, [1], false⟩, ⟨2, 2, [2], false⟩], 2⟩)[1]?)) = some false :=
  (c8_first_access_faults [1, 2] 1 (by norm_num)).1
    ⟨"FIFO", [⟨1, 1, [1], false⟩, ⟨2, 2, [2], false⟩], 2⟩ rfl 1 2 (by decide)
    (by decide)

/-- At frame capacity 1 the three loops coincide exactly: same recorded
steps, same fault counts, from any (at most singleton) shared frame state. -/
theorem cap1_go_eq (reference : List Int) :
    ∀ (rest : List Int) (i : Nat) (frames : List Int) (lu : Int → Option Nat),
    frames.length ≤ 1 →
    lruGo 1 i rest frames lu = fifoGo 1 i rest frames frames ∧
    optGo reference 1 i rest frames = fifoGo 1 i rest frames frames := by
  intro rest
  induction rest with
  | nil =>
    intro i frames lu hlen
    exact ⟨rfl, rfl⟩
  | cons page rest ih =>
    intro i frames lu hlen
    by_cases hp : page ∈ frames
    · constructor
      · simp only [lruGo, fifoGo, lruStep, fifoStep, if_pos hp]
        rw [(ih (i + 1) frames (updateLu lu page i) hlen).1]
      · simp only [optGo, fifoGo, optStep, fifoStep, if_pos hp]
        rw [(ih (i + 1) frames lu hlen).2]
    · match frames, hlen, hp with
      | [], _, hp =>
        have hf : fifoStep 1 page [] [] = .ok ([page], [page], false) := by
          simp [fifoStep, hp]
        have hl : lruStep 1 i page [] lu = .ok ([page], updateLu lu page i, false) := by
          simp [lruStep, hp]
        have ho : optStep reference 1 i page [] = .ok ([page], false) := by
          simp [optStep, hp]
        constructor
        · simp only [lruGo, fifoGo, hf, hl]
          rw [(ih (i + 1) [page] (updateLu lu page i) (by simp)).1]
        · simp only [optGo, fifoGo, hf, ho]
          rw [(ih (i + 1) [page] lu (by simp)).2]
      | [x], _, hp =>
        have hpx : ¬ (page = x) := by simpa using hp
        have hf : fifoStep 1 page [x] [x] = .ok ([page], [page], false) := by
          simp [fifoStep, hp, hpx, List.findIdx?_cons]
        have hl : lruStep 1 i page [x] lu =
            .ok ([page], updateLu lu page i, false) := by
          simp [lruStep, hp, hpx, pyMinBy, List.findIdx?_cons]
        have ho : optStep reference 1 i page [x] = .ok ([page], false) := by
          rcases hnu : pyIndexFrom reference x i with _ | nu
          · simp [optStep, hp, hpx, optScan, hnu]
          · have hlt : (-1 : Int) < (nu : Int) := by omega
            simp [optStep, hp, hpx, optScan, hnu, hlt]
        constructor
        · simp only [lruGo, fifoGo, hf, hl]
          rw [(ih (i + 1) [page] (updateLu lu page i) (by simp)).1]
        · simp only [optGo, fifoGo, hf, ho]
          rw [(ih (i + 1) [page] lu (by simp)).2]
      | x :: y :: t, hlen, _ => exact absurd hlen (by simp)

/-- C5: at frame capacity 1, the three algorithms agree on the hit/fault
classification of every step and on the total fault count, for every
reference sequence. -/
theorem c5_capacity_one_agreement (reference : List Int) :
    ∃ rf rl ro, simulate_fifo reference 1 = .ok rf ∧
      simulate_lru reference 1 = .ok rl ∧
      simulate_optimal reference 1 = .ok ro ∧
      rl.steps.map StepResult.is_hit = rf.steps.map StepResult.is_hit ∧
      ro.steps.map StepResult.is_hit = rf.steps.map StepResult.is_hit ∧
      rl.total_faults = rf.total_faults ∧
      ro.total_faults = rf.total_faults := by
  obtain ⟨heq1, heq2⟩ := cap1_go_eq reference reference 1 [] (fun _ => none) (by simp)
  obtain ⟨steps, faults, hgo, -, -⟩ := fifoGo_ok 1 (le_refl 1) reference 1 [] []
    (by simp) (by simp) (List.Perm.refl _)
  refine ⟨⟨"FIFO", steps, faults⟩, ⟨"LRU", steps, faults⟩, ⟨"Optimal", steps, faults⟩,
    ?_, ?_, ?_, rfl, rfl, rfl, rfl⟩
  · simp only [simulate_fifo, hgo]
  · simp only [simulate_lru, heq1, hgo]
  · simp only [simulate_optimal, heq2, hgo]

/-- A member different from the overwritten entry survives a `set`. -/
theorem mem_set_of_ne (y a : Int) : ∀ (l : List Int) (k : Nat),
    y ∈ l → l[k]? ≠ some y → y ∈ l.set k a
  | [], _, hy, _ => absurd hy (by simp)
  | b :: t, 0, hy, hk => by
    rw [List.set_cons_zero]
    rcases List.mem_cons.mp hy with h | h
    · exact absurd (by rw [List.getElem?_cons_zero, h]) hk
    · exact List.mem_cons_of_mem a h
  | b :: t, k + 1, hy, hk => by
    rw [List.set_cons_succ]
    rcases List.mem_cons.mp hy with h | h
    · exact h ▸ List.mem_cons_self b _
    · exact List.mem_cons_of_mem b
        (mem_set_of_ne y a t k h (by rw [List.getElem?_cons_succ] at hk; exact hk))

/-- In a duplicate-free list, overwriting the slot holding `m` with a
different value removes `m`. -/
theorem not_mem_set_of_nodup (a m : Int) : ∀ (l : List Int) (k : Nat),
    l.Nodup → l[k]? = some m → a ≠ m → m ∉ l.set k a
  | [], k, _, hk, _ => by simp at hk
  | b :: t, 0, hnd, hk, ha => by
    rw [List.getElem?_cons_zero] at hk
    injection hk with hk
    subst hk
    rw [List.set_cons_zero]
    intro hc
    rcases List.mem_cons.mp hc with h | h
    · exact ha h.symm
    · exact (List.nodup_cons.mp hnd).1 h
  | b :: t, k + 1, hnd, hk, ha => by
    rw [List.getElem?_cons_succ] at hk
    rw [List.set_cons_succ]
    intro hc
    rcases List.mem_cons.mp hc with h | h
    · exact (List.nodup_cons.mp hnd).1 (h ▸ List.getElem?_mem hk)
    · exact not_mem_set_of_nodup a m t k (List.nodup_cons.mp hnd).2 hk ha h

/-- Two duplicate-free lists with the same members have the same length. -/
theorem length_eq_of_nodup_mem_iff (F F' : List Int) (h : F.Nodup) (h' : F'.Nodup)
    (hiff : ∀ x, x ∈ F ↔ x ∈ F') : F.length = F'.length := by
  rw [← List.toFinset_card_of_nodup h, ← List.toFinset_card_of_nodup h']
  congr 1
  ext x
  simp only [List.mem_toFinset]
  exact hiff x

/-- The LRU loop body on a hit. -/
theorem lruStep_eq_hit (cap : Int) (i : Nat) (page : Int) (F : List Int)
    (lu : Int → Option Nat) (hp : page ∈ F) :
    lruStep cap i page F lu = .ok (F, updateLu lu page i, true) := by
  simp [lruStep, hp]

/-- The LRU loop body on a fault with spare capacity. -/
theorem lruStep_eq_insert (cap : Int) (i : Nat) (page : Int) (F : List Int)
    (lu : Int → Option Nat) (hp : page ∉ F) (hlt : (F.length : Int) < cap) :
    lruStep cap i page F lu = .ok (F ++ [page], updateLu lu page i, false) := by
  simp [lruStep, hp, hlt]

/-- The LRU loop body on a fault with the frame set full. -/
theorem lruStep_eq_evict (cap : Int) (i : Nat) (page f : Int) (fs : List Int)
    (lu : Int → Option Nat) (hp : page ∉ f :: fs)
    (hlt : ¬ (((f :: fs).length : Int) < cap)) :
    lruStep cap i page (f :: fs) lu =
      .ok ((f :: fs).set
            ((f :: fs).indexOf (pyMinBy (fun p => (lu p).getD 0) f fs)) page,
          updateLu lu page i, false) := by
  simp only [lruStep, if_neg hp, if_neg hlt,
    findIdxQ_eq_indexOf _ _ (pyMinBy_mem (fun p => (lu p).getD 0) fs f)]

/-- Paired-run monotonicity for LRU: running the same references with one
extra frame, from paired states satisfying the inclusion invariant (the
small frame set is contained in the large one, both duplicate-free, with a
shared last-used map that is injective on residents and bounded by the
current step), never produces more faults. -/
theorem lruGo_pair_mono (c : Int) (hc : 1 ≤ c) :
    ∀ (rest : List Int) (i : Nat) (F F' : List Int) (lu : Int → Option Nat)
      (steps steps' : List StepResult) (f f' : Nat),
    F.Nodup → F'.Nodup →
    (F.length : Int) ≤ c → (F'.length : Int) ≤ c + 1 →
    (∀ x ∈ F, x ∈ F') →
    ((F.length : Int) < c → ∀ x, x ∈ F ↔ x ∈ F') →
    (∀ x ∈ F', ∀ y ∈ F', (lu x).getD 0 = (lu y).getD 0 → x = y) →
    (∀ x ∈ F', (lu x).getD 0 < i) →
    lruGo c i rest F lu = .ok (steps, f) →
    lruGo (c + 1) i rest F' lu = .ok (steps', f') →
    f' ≤ f := by
  intro rest
  induction rest with
  | nil =>
    intro i F F' lu steps steps' f f' _ _ _ _ _ _ _ _ hgo hgo'
    simp only [lruGo, Except.ok.injEq, Prod.mk.injEq] at hgo hgo'
    omega
  | cons page rest ih =>
    intro i F F' lu steps steps' f f' hnd hnd' hlen hlen' hsub hEq hinj hbound hgo hgo'
    have hinjNew : ∀ x, (x ∈ F' ∨ x = page) → ∀ y, (y ∈ F' ∨ y = page) →
        (updateLu lu page i x).getD 0 = (updateLu lu page i y).getD 0 → x = y := by
      intro x hx y hy hxy
      by_cases hxp : x = page <;> by_cases hyp : y = page
      · rw [hxp, hyp]
      · exfalso
        have hy1 : y ∈ F' := hy.resolve_right hyp
        have h1 : (updateLu lu page i x).getD 0 = i := by simp [updateLu, hxp]
        have h2 : (updateLu lu page i y).getD 0 = (lu y).getD 0 := by
          simp [updateLu, hyp]
        have h3 := hbound y hy1
        omega
      · exfalso
        have hx1 : x ∈ F' := hx.resolve_right hxp
        have h1 : (updateLu lu page i y).getD 0 = i := by simp [updateLu, hyp]
        have h2 : (updateLu lu page i x).getD 0 = (lu x).getD 0 := by
          simp [updateLu, hxp]
        have h3 := hbound x hx1
        omega
      · have hx1 : x ∈ F' := hx.resolve_right hxp
        have hy1 : y ∈ F' := hy.resolve_right hyp
        have h1 : (updateLu lu page i x).getD 0 = (lu x).getD 0 := by
          simp [updateLu, hxp]
        have h2 : (updateLu lu page i y).getD 0 = (lu y).getD 0 := by
          simp [updateLu, hyp]
        exact hinj x hx1 y hy1 (by rw [← h1, ← h2]; exact hxy)
    have hboundNew : ∀ x, (x ∈ F' ∨ x = page) →
        (updateLu lu page i x).getD 0 < i + 1 := by
      intro x hx
      by_cases hxp : x = page
      · have h1 : (updateLu lu page i x).getD 0 = i := by simp [updateLu, hxp]
        omega
      · have hx1 : x ∈ F' := hx.resolve_right hxp
        have h1 : (updateLu lu page i x).getD 0 = (lu x).getD 0 := by
          simp [updateLu, hxp]
        have h2 := hbound x hx1
        omega
    by_cases hpF : page ∈ F
    · -- hit in both runs
      have hpF' : page ∈ F' := hsub page hpF
      simp only [lruGo, lruStep_eq_hit c i page F lu hpF] at hgo
      simp only [lruGo, lruStep_eq_hit (c + 1) i page F' lu hpF'] at hgo'
      rcases hrec : lruGo c (i + 1) rest F (updateLu lu page i) with e | ⟨steps1, f1⟩
      · rw [hrec] at hgo
        simp at hgo
      rcases hrec' : lruGo (c + 1) (i + 1) rest F' (updateLu lu page i) with
        e' | ⟨steps1', f1'⟩
      · rw [hrec'] at hgo'
        simp at hgo'
      rw [hrec] at hgo
      rw [hrec'] at hgo'
      simp at hgo hgo'
      have hih := ih (i + 1) F F' (updateLu lu page i) steps1 steps1' f1 f1'
        hnd hnd' hlen hlen' hsub hEq
        (fun x hx y hy => hinjNew x (Or.inl hx) y (Or.inl hy))
        (fun x hx => hboundNew x (Or.inl hx)) hrec hrec'
      omega
    · by_cases hpF' : page ∈ F'
      · -- fault in the small run, hit in the large run
        have hfull : ¬ ((F.length : Int) < c) := fun hlt => hpF ((hEq hlt page).mpr hpF')
        match F, hnd, hlen, hsub, hpF, hfull with
        | [], _, _, _, _, hfull => exact absurd (by simp; omega) hfull
        | f0 :: fs0, hnd, hlen, hsub, hpF, hfull =>
          simp only [lruGo, lruStep_eq_evict c i page f0 fs0 lu hpF hfull] at hgo
          simp only [lruGo, lruStep_eq_hit (c + 1) i page F' lu hpF'] at hgo'
          have hmF : pyMinBy (fun p => (lu p).getD 0) f0 fs0 ∈ f0 :: fs0 :=
            pyMinBy_mem _ fs0 f0
          rcases hrec : lruGo c (i + 1) rest
              ((f0 :: fs0).set ((f0 :: fs0).indexOf
                (pyMinBy (fun p => (lu p).getD 0) f0 fs0)) page)
              (updateLu lu page i) with e | ⟨steps1, f1⟩
          · rw [hrec] at hgo
            simp at hgo
          rcases hrec' : lruGo (c + 1) (i + 1) rest F' (updateLu lu page i) with
            e' | ⟨steps1', f1'⟩
          · rw [hrec'] at hgo'
            simp at hgo'
          rw [hrec] at hgo
          rw [hrec'] at hgo'
          simp at hgo hgo'
          have hih := ih (i + 1) _ F' (updateLu lu page i) steps1 steps1' f1 f1'
            (hnd.set hpF) hnd' (by simpa using hlen) hlen'
            (fun x hx => by
              rcases List.mem_or_eq_of_mem_set hx with h | h
              · exact hsub x h
              · exact h ▸ hpF')
            (fun hlt => by rw [List.length_set] at hlt; exact absurd hlt hfull)
            (fun x hx y hy => hinjNew x (Or.inl hx) y (Or.inl hy))
            (fun x hx => hboundNew x (Or.inl hx)) hrec hrec'
          omega
      · -- fault in both runs
        by_cases hltF : (F.length : Int) < c
        · -- both have spare capacity
          have hiff := hEq hltF
          have hlenEq := length_eq_of_nodup_mem_iff F F' hnd hnd' hiff
          have hltF' : (F'.length : Int) < c + 1 := by
            rw [← hlenEq]
            omega
          simp only [lruGo, lruStep_eq_insert c i page F lu hpF hltF] at hgo
          simp only [lruGo,
            lruStep_eq_insert (c + 1) i page F' lu hpF' hltF'] at hgo'
          rcases hrec : lruGo c (i + 1) rest (F ++ [page]) (updateLu lu page i) with
            e | ⟨steps1, f1⟩
          · rw [hrec] at hgo
            simp at hgo
          rcases hrec' : lruGo (c + 1) (i + 1) rest (F' ++ [page])
              (updateLu lu page i) with e' | ⟨steps1', f1'⟩
          · rw [hrec'] at hgo'
            simp at hgo'
          rw [hrec] at hgo
          rw [hrec'] at hgo'
          simp at hgo hgo'
          have hmem' : ∀ x, x ∈ F' ++ [page] → x ∈ F' ∨ x = page := by
            intro x hx
            rcases List.mem_append.mp hx with h | h
            · exact Or.inl h
            · exact Or.inr (by simpa using h)
          have hih := ih (i + 1) (F ++ [page]) (F' ++ [page]) (updateLu lu page i)
            steps1 steps1' f1 f1'
            (by simp [List.nodup_append, hnd, hpF])
            (by simp [List.nodup_append, hnd', hpF'])
            (by simp; omega)
            (by simp; omega)
            (fun x hx => by
              rcases List.mem_append.mp hx with h | h
              · exact List.mem_append.mpr (Or.inl (hsub x h))
              · exact List.mem_append.mpr (Or.inr h))
            (fun _ x => by
              simp only [List.mem_append]
              constructor
              · intro hx
                rcases hx with h | h
                · exact Or.inl ((hiff x).mp h)
                · exact Or.inr h
              · intro hx
                rcases hx with h | h
                · exact Or.inl ((hiff x).mpr h)
                · exact Or.inr h)
            (fun x hx y hy => hinjNew x (hmem' x hx) y (hmem' y hy))
            (fun x hx => hboundNew x (hmem' x hx)) hrec hrec'
          omega
        · -- the small run is full and evicts
          match F, hnd, hlen, hsub, hEq, hpF, hltF with
          | [], _, _, _, _, _, hltF => exact absurd (by simp; omega) hltF
          | f0 :: fs0, hnd, hlen, hsub, hEq, hpF, hltF =>
            have hmF : pyMinBy (fun p => (lu p).getD 0) f0 fs0 ∈ f0 :: fs0 :=
              pyMinBy_mem _ fs0 f0
            have hmnotpage : page ≠ pyMinBy (fun p => (lu p).getD 0) f0 fs0 :=
              fun hc => hpF (hc ▸ hmF)
            simp only [lruGo, lruStep_eq_evict c i page f0 fs0 lu hpF hltF] at hgo
            rcases hrec : lruGo c (i + 1) rest
                ((f0 :: fs0).set ((f0 :: fs0).indexOf
                  (pyMinBy (fun p => (lu p).getD 0) f0 fs0)) page)
                (updateLu lu page i) with e | ⟨steps1, f1⟩
            · rw [hrec] at hgo
              simp at hgo
            rw [hrec] at hgo
            have hnd1 : ((f0 :: fs0).set ((f0 :: fs0).indexOf
                (pyMinBy (fun p => (lu p).getD 0) f0 fs0)) page).Nodup := hnd.set hpF
            have hlen1 : (((f0 :: fs0).set ((f0 :: fs0).indexOf
                (pyMinBy (fun p => (lu p).getD 0) f0 fs0)) page).length : Int) ≤ c := by
              simpa using hlen
            have hEq1 : ∀ F1 : List Int, F1.length = (f0 :: fs0).length →
                ((F1.length : Int) < c → ∀ x, x ∈ F1 ↔ x ∈ ([] : List Int)) →
                True := fun _ _ _ => trivial
            by_cases hltF' : (F'.length : Int) < c + 1
            · -- the large run still has room
              simp only [lruGo,
                lruStep_eq_insert (c + 1) i page F' lu hpF' hltF'] at hgo'
              rcases hrec' : lruGo (c + 1) (i + 1) rest (F' ++ [page])
                  (updateLu lu page i) with e' | ⟨steps1', f1'⟩
              · rw [hrec'] at hgo'
                simp at hgo'
              rw [hrec'] at hgo'
              simp at hgo hgo'
              have hmem' : ∀ x, x ∈ F' ++ [page] → x ∈ F' ∨ x = page := by
                intro x hx
                rcases List.mem_append.mp hx with h | h
                · exact Or.inl h
                · exact Or.inr (by simpa using h)
              have hih := ih (i + 1) _ (F' ++ [page]) (updateLu lu page i)
                steps1 steps1' f1 f1' hnd1
                (by simp [List.nodup_append, hnd', hpF'])
                hlen1
                (by simp; omega)
                (fun x hx => by
                  rcases List.mem_or_eq_of_mem_set hx with h | h
                  · exact List.mem_append.mpr (Or.inl (hsub x h))
                  · exact List.mem_append.mpr (Or.inr (by simp [h])))
                (fun hlt => by rw [List.length_set] at hlt; exact absurd hlt hltF)
                (fun x hx y hy => hinjNew x (hmem' x hx) y (hmem' y hy))
                (fun x hx => hboundNew x (hmem' x hx)) hrec hrec'
              omega
            · -- both runs are full and evict
              match F', hnd', hlen', hsub, hEq, hinj, hbound, hpF', hltF',
                  hinjNew, hboundNew with
              | [], _, _, _, _, _, _, _, hltF', _, _ =>
                exact absurd (by simp; omega) hltF'
              | f0' :: fs0', hnd', hlen', hsub, hEq, hinj, hbound, hpF', hltF',
                  hinjNew, hboundNew =>
                have hm'F' : pyMinBy (fun p => (lu p).getD 0) f0' fs0' ∈ f0' :: fs0' :=
                  pyMinBy_mem _ fs0' f0'
                have hm'notpage :
                    page ≠ pyMinBy (fun p => (lu p).getD 0) f0' fs0' :=
                  fun hc => hpF' (hc ▸ hm'F')
                have hclaim : pyMinBy (fun p => (lu p).getD 0) f0' fs0' ∈ f0 :: fs0 →
                    pyMinBy (fun p => (lu p).getD 0) f0' fs0' =
                      pyMinBy (fun p => (lu p).getD 0) f0 fs0 := by
                  intro hin
                  have h1 := pyMinBy_le (fun p => (lu p).getD 0) fs0 f0 _ hin
                  have h2 := pyMinBy_le (fun p => (lu p).getD 0) fs0' f0' _
                    (hsub _ hmF)
                  exact hinj _ hm'F' _ (hsub _ hmF) (le_antisymm h2 h1)
                simp only [lruGo,
                  lruStep_eq_evict (c + 1) i page f0' fs0' lu hpF' hltF'] at hgo'
                rcases hrec' : lruGo (c + 1) (i + 1) rest
                    ((f0' :: fs0').set ((f0' :: fs0').indexOf
                      (pyMinBy (fun p => (lu p).getD 0) f0' fs0')) page)
                    (updateLu lu page i) with e' | ⟨steps1', f1'⟩
                · rw [hrec'] at hgo'
                  simp at hgo'
                rw [hrec'] at hgo'
                simp at hgo hgo'
                have hmnot : pyMinBy (fun p => (lu p).getD 0) f0 fs0 ∉
                    (f0 :: fs0).set ((f0 :: fs0).indexOf
                      (pyMinBy (fun p => (lu p).getD 0) f0 fs0)) page :=
                  not_mem_set_of_nodup page _ (f0 :: fs0) _ hnd
                    (List.getElem?_indexOf hmF) hmnotpage
                have hsub1 : ∀ x, x ∈ (f0 :: fs0).set ((f0 :: fs0).indexOf
                      (pyMinBy (fun p => (lu p).getD 0) f0 fs0)) page →
                    x ∈ (f0' :: fs0').set ((f0' :: fs0').indexOf
                      (pyMinBy (fun p => (lu p).getD 0) f0' fs0')) page := by
                  intro x hx
                  rcases List.mem_or_eq_of_mem_set hx with hxF | hxp
                  · have hxm : x ≠ pyMinBy (fun p => (lu p).getD 0) f0 fs0 :=
                      fun hcc => hmnot (hcc ▸ hx)
                    have hxm' : x ≠ pyMinBy (fun p => (lu p).getD 0) f0' fs0' :=
                      fun hcc => hxm (by rw [hcc]; exact hclaim (hcc ▸ hxF))
                    exact mem_set_of_ne x page (f0' :: fs0') _ (hsub x hxF)
                      (by rw [List.getElem?_indexOf hm'F']
                          intro hcc
                          injection hcc with hcc
                          exact hxm' hcc.symm)
                  · subst hxp
                    exact List.mem_set (f0' :: fs0') _
                      (List.indexOf_lt_length.mpr hm'F') x
                have hmem1' : ∀ x, x ∈ (f0' :: fs0').set ((f0' :: fs0').indexOf
                      (pyMinBy (fun p => (lu p).getD 0) f0' fs0')) page →
                    x ∈ f0' :: fs0' ∨ x = page := fun x hx =>
                  List.mem_or_eq_of_mem_set hx
                have hih := ih (i + 1) _ _ (updateLu lu page i)
                  steps1 steps1' f1 f1' hnd1 (hnd'.set hpF') hlen1
                  (by simpa using hlen')
                  hsub1
                  (fun hlt => by rw [List.length_set] at hlt; exact absurd hlt hltF)
                  (fun x hx y hy => hinjNew x (hmem1' x hx) y (hmem1' y hy))
                  (fun x hx => hboundNew x (hmem1' x hx)) hrec hrec'
                omega

theorem minF_cons_mem (cap : Nat) (p : Int) (σ : List Int) (S : Finset Int)
    (h : p ∈ S) : minF cap (p :: σ) S = minF cap σ S := by
  simp [minF, h]

theorem minF_cons_insert (cap : Nat) (p : Int) (σ : List Int) (S : Finset Int)
    (h1 : p ∉ S) (h2 : S.card < cap) :
    minF cap (p :: σ) S = 1 + minF cap σ (insert p S) := by
  simp [minF, h1, h2]

theorem minF_cons_evict (cap : Nat) (p : Int) (σ : List Int) (S : Finset Int)
    (h1 : p ∉ S) (h2 : ¬ S.card < cap) (hS : S.Nonempty) :
    minF cap (p :: σ) S =
      1 + S.inf' hS (fun q => minF cap σ (insert p (S.erase q))) := by
  simp [minF, h1, h2, hS]

theorem minF_cons_dead (cap : Nat) (p : Int) (σ : List Int) (S : Finset Int)
    (h1 : p ∉ S) (h2 : ¬ S.card < cap) (hS : ¬ S.Nonempty) :
    minF cap (p :: σ) S = 1 + minF cap σ S := by
  simp only [minF, if_neg h1, if_neg h2, dif_neg hS]

/-- `nxt` unfolds over a cons cell. -/
theorem nxt_cons (p x : Int) (σ : List Int) :
    nxt (p :: σ) x = if p = x then 0 else nxt σ x + 1 := by
  unfold nxt
  rw [List.findIdx?_cons]
  by_cases h : p = x
  · rw [if_pos (by simp [h]), if_pos h]
    rfl
  · rw [if_neg (by simp [h]), if_neg h, List.findIdx?_succ]
    rcases hf : σ.findIdx? (fun q => q == x) with _ | j
    · simp
    · simp only [Option.map_some]
      push_cast
      rfl

/-- Cancellation of the `+ 1` shift on next-use distances. -/
theorem nxt_le_of_add_one (a b : ℕ∞) (h : a + 1 ≤ b + 1) : a ≤ b :=
  (WithTop.add_le_add_iff_right (by simp : (1 : ℕ∞) ≠ ⊤)).mp h

/-- The offline optimum improves (weakly) with more frames and a larger
resident set: monotonicity of `minF` in both capacity and state. -/
theorem minF_mono_cap : ∀ (σ : List Int) (c c' : Nat) (S T : Finset Int),
    c ≤ c' → S ⊆ T → S.card ≤ c → T.card ≤ c' →
    minF c' σ T ≤ minF c σ S := by
  intro σ
  induction σ with
  | nil =>
    intro c c' S T _ _ _ _
    simp [minF]
  | cons p σ ih =>
    intro c c' S T hcc hsub hS hT
    by_cases hpS : p ∈ S
    · have hpT : p ∈ T := hsub hpS
      rw [minF_cons_mem c p σ S hpS, minF_cons_mem c' p σ T hpT]
      exact ih c c' S T hcc hsub hS hT
    · by_cases hpT : p ∈ T
      · rw [minF_cons_mem c' p σ T hpT]
        by_cases hcard : S.card < c
        · rw [minF_cons_insert c p σ S hpS hcard]
          have hc1 : (insert p S).card ≤ c := by
            rw [Finset.card_insert_of_not_mem hpS]
            omega
          have h1 := ih c c' (insert p S) T hcc
            (Finset.insert_subset hpT hsub) hc1 hT
          omega
        · by_cases hSne : S.Nonempty
          · rw [minF_cons_evict c p σ S hpS hcard hSne]
            obtain ⟨q0, hq0, hq0eq⟩ := Finset.exists_mem_eq_inf' hSne
              (fun q => minF c σ (insert p (S.erase q)))
            rw [hq0eq]
            have hc1 : (insert p (S.erase q0)).card ≤ c := by
              have he := Finset.card_erase_of_mem hq0
              have hci := Finset.card_insert_le p (S.erase q0)
              have hpos : 1 ≤ S.card := Finset.card_pos.mpr ⟨q0, hq0⟩
              omega
            have h1 := ih c c' (insert p (S.erase q0)) T hcc
              (Finset.insert_subset hpT
                (fun x hx => hsub (Finset.mem_of_mem_erase hx))) hc1 hT
            omega
          · rw [minF_cons_dead c p σ S hpS hcard hSne]
            have h1 := ih c c' S T hcc hsub hS hT
            omega
      · by_cases hTcard : T.card < c'
        · rw [minF_cons_insert c' p σ T hpT hTcard]
          have hcT1 : (insert p T).card ≤ c' := by
            rw [Finset.card_insert_of_not_mem hpT]
            omega
          by_cases hcard : S.card < c
          · rw [minF_cons_insert c p σ S hpS hcard]
            have hc1 : (insert p S).card ≤ c := by
              rw [Finset.card_insert_of_not_mem hpS]
              omega
            have h1 := ih c c' (insert p S) (insert p T) hcc
              (Finset.insert_subset_insert p hsub) hc1 hcT1
            omega
          · by_cases hSne : S.Nonempty
            · rw [minF_cons_evict c p σ S hpS hcard hSne]
              obtain ⟨q0, hq0, hq0eq⟩ := Finset.exists_mem_eq_inf' hSne
                (fun q => minF c σ (insert p (S.erase q)))
              rw [hq0eq]
              have hc1 : (insert p (S.erase q0)).card ≤ c := by
                have he := Finset.card_erase_of_mem hq0
                have hci := Finset.card_insert_le p (S.erase q0)
                have hpos : 1 ≤ S.card := Finset.card_pos.mpr ⟨q0, hq0⟩
                omega
              have h1 := ih c c' (insert p (S.erase q0)) (insert p T) hcc
                (Finset.insert_subset_insert p
                  (fun x hx => hsub (Finset.mem_of_mem_erase hx))) hc1 hcT1
              omega
            · rw [minF_cons_dead c p σ S hpS hcard hSne]
              have h1 := ih c c' S (insert p T) hcc
                (hsub.trans (Finset.subset_insert p T)) hS hcT1
              omega
        · by_cases hTne : T.Nonempty
          · rw [minF_cons_evict c' p σ T hpT hTcard hTne]
            have hTc : T.card = c' := by
              have := Finset.card_le_card hsub
              omega
            by_cases hcard : S.card < c
            · rw [minF_cons_insert c p σ S hpS hcard]
              obtain ⟨t, htT, htS⟩ : ∃ t ∈ T, t ∉ S := by
                by_contra hcon
                push_neg at hcon
                have := Finset.card_le_card hcon
                omega
              have hpTe : p ∉ T.erase t := fun hcon =>
                hpT (Finset.mem_of_mem_erase hcon)
              have hstep : T.inf' hTne (fun q => minF c' σ (insert p (T.erase q))) ≤
                  minF c' σ (insert p (T.erase t)) :=
                Finset.inf'_le _ htT
              have hsub1 : insert p S ⊆ insert p (T.erase t) := by
                intro x hx
                rcases Finset.mem_insert.mp hx with hx | hx
                · rw [hx]
                  exact Finset.mem_insert_self p _
                · exact Finset.mem_insert_of_mem
                    (Finset.mem_erase.mpr ⟨fun hcon => htS (hcon ▸ hx), hsub hx⟩)
              have hc1 : (insert p S).card ≤ c := by
                rw [Finset.card_insert_of_not_mem hpS]
                omega
              have hcT1 : (insert p (T.erase t)).card ≤ c' := by
                rw [Finset.card_insert_of_not_mem hpTe,
                  Finset.card_erase_of_mem htT]
                have hposT : 1 ≤ T.card := Finset.card_pos.mpr ⟨t, htT⟩
                omega
              have h1 := ih c c' (insert p S) (insert p (T.erase t)) hcc
                hsub1 hc1 hcT1
              omega
            · by_cases hSne : S.Nonempty
              · rw [minF_cons_evict c p σ S hpS hcard hSne]
                obtain ⟨q0, hq0, hq0eq⟩ := Finset.exists_mem_eq_inf' hSne
                  (fun q => minF c σ (insert p (S.erase q)))
                rw [hq0eq]
                obtain ⟨t, htT, htS⟩ : ∃ t ∈ T, t ∉ S.erase q0 := by
                  by_contra hcon
                  push_neg at hcon
                  have h2 := Finset.card_le_card hcon
                  have h3 := Finset.card_erase_of_mem hq0
                  have h4 : 1 ≤ S.card := Finset.card_pos.mpr hSne
                  omega
                have hpTe : p ∉ T.erase t := fun hcon =>
                  hpT (Finset.mem_of_mem_erase hcon)
                have hstep : T.inf' hTne
                    (fun q => minF c' σ (insert p (T.erase q))) ≤
                    minF c' σ (insert p (T.erase t)) :=
                  Finset.inf'_le _ htT
                have hsub1 : insert p (S.erase q0) ⊆ insert p (T.erase t) := by
                  intro x hx
                  rcases Finset.mem_insert.mp hx with hx | hx
                  · rw [hx]
                    exact Finset.mem_insert_self p _
                  · exact Finset.mem_insert_of_mem
                      (Finset.mem_erase.mpr
                        ⟨fun hcon => htS (hcon ▸ hx),
                          hsub (Finset.mem_of_mem_erase hx)⟩)
                have hc1 : (insert p (S.erase q0)).card ≤ c := by
                  have he := Finset.card_erase_of_mem hq0
                  have hci := Finset.card_insert_le p (S.erase q0)
                  have hpos : 1 ≤ S.card := Finset.card_pos.mpr ⟨q0, hq0⟩
                  omega
                have hcT1 : (insert p (T.erase t)).card ≤ c' := by
                  rw [Finset.card_insert_of_not_mem hpTe,
                    Finset.card_erase_of_mem htT]
                  have hposT : 1 ≤ T.card := Finset.card_pos.mpr ⟨t, htT⟩
                  omega
                have h1 := ih c c' (insert p (S.erase q0)) (insert p (T.erase t))
                  hcc hsub1 hc1 hcT1
                omega
              · rw [minF_cons_dead c p σ S hpS hcard hSne]
                obtain ⟨t, htT⟩ := id hTne
                have hpTe : p ∉ T.erase t := fun hcon =>
                  hpT (Finset.mem_of_mem_erase hcon)
                have hstep : T.inf' hTne
                    (fun q => minF c' σ (insert p (T.erase q))) ≤
                    minF c' σ (insert p (T.erase t)) :=
                  Finset.inf'_le _ htT
                have hSempty : S = ∅ := Finset.not_nonempty_iff_eq_empty.mp hSne
                have hsub1 : S ⊆ insert p (T.erase t) := by
                  rw [hSempty]
                  exact Finset.empty_subset _
                have hcT1 : (insert p (T.erase t)).card ≤ c' := by
                  rw [Finset.card_insert_of_not_mem hpTe,
                    Finset.card_erase_of_mem htT]
                  have hposT : 1 ≤ T.card := Finset.card_pos.mpr ⟨t, htT⟩
                  omega
                have h1 := ih c c' S (insert p (T.erase t)) hcc hsub1 hS hcT1
                omega
          · have hTempty : T = ∅ := Finset.not_nonempty_iff_eq_empty.mp hTne
            have hSempty : S = ∅ := by
              rw [hTempty] at hsub
              exact Finset.subset_empty.mp hsub
            have hSne : ¬ S.Nonempty := by
              rw [hSempty]
              exact Finset.not_nonempty_empty
            have hcard : ¬ S.card < c := by
              rw [hSempty]
              rw [hTempty] at hTcard
              simp only [Finset.card_empty] at hTcard ⊢
              omega
            rw [minF_cons_dead c p σ S hpS hcard hSne,
              minF_cons_dead c' p σ T hpT hTcard hTne]
            have h1 := ih c c' S T hcc hsub hS hT
            omega

/-- Rotating an element of `C` out and back in. -/
theorem insert_rot (x q : Int) (C : Finset Int) (hq : q ∈ C) :
    insert q (insert x (C.erase q)) = insert x C := by
  rw [Finset.Insert.comm, Finset.insert_erase hq]

/-- The two slack-one exchange bounds of the Belady argument, proved
jointly: replacing one element of the resident set costs at most one extra
fault, and dropping one element costs at most one extra fault. -/
theorem minF_exchange (c : Nat) : ∀ (n : Nat) (σ : List Int), σ.length ≤ n →
    (∀ (C : Finset Int) (a b : Int), a ∉ C → b ∉ C → C.card + 1 ≤ c →
      minF c σ (insert a C) ≤ 1 + minF c σ (insert b C)) ∧
    (∀ (S : Finset Int) (b : Int), b ∉ S → S.card + 1 ≤ c →
      minF c σ S ≤ 1 + minF c σ (insert b S)) := by
  intro n
  induction n with
  | zero =>
    intro σ hσ
    have hnil : σ = [] := List.length_eq_zero.mp (Nat.le_zero.mp hσ)
    subst hnil
    exact ⟨fun _ _ _ _ _ _ => by simp [minF], fun _ _ _ _ => by simp [minF]⟩
  | succ n ihn =>
    intro σ hσ
    match σ, hσ with
    | [], _ =>
      exact ⟨fun _ _ _ _ _ _ => by simp [minF], fun _ _ _ _ => by simp [minF]⟩
    | p :: rest, hσ =>
      have hrest : rest.length ≤ n := by
        simp only [List.length_cons] at hσ
        omega
      obtain ⟨ihL, ihL2⟩ := ihn rest hrest
      constructor
      · intro C a b haC hbC hcard
        by_cases hab : a = b
        · rw [hab]
          exact Nat.le_add_left _ 1
        have hcA : (insert a C).card = C.card + 1 := Finset.card_insert_of_not_mem haC
        have hcB : (insert b C).card = C.card + 1 := Finset.card_insert_of_not_mem hbC
        by_cases hpa : p = a
        · have hpA : p ∈ insert a C := by
            rw [hpa]
            exact Finset.mem_insert_self a C
          rw [minF_cons_mem c p rest (insert a C) hpA]
          have hpB : p ∉ insert b C := by
            rw [hpa]
            intro hcon
            rcases Finset.mem_insert.mp hcon with h | h
            · exact hab h
            · exact haC h
          by_cases hBfull : (insert b C).card < c
          · rw [minF_cons_insert c p rest (insert b C) hpB hBfull]
            have hbA : b ∉ insert a C := by
              intro hcon
              rcases Finset.mem_insert.mp hcon with h | h
              · exact hab h.symm
              · exact hbC h
            have h2 := ihL2 (insert a C) b hbA (by rw [hcA]; rw [hcB] at hBfull; omega)
            have hsets : insert b (insert a C) = insert p (insert b C) := by
              rw [hpa, Finset.Insert.comm]
            rw [hsets] at h2
            omega
          · have hBne : (insert b C).Nonempty := ⟨b, Finset.mem_insert_self b C⟩
            rw [minF_cons_evict c p rest (insert b C) hpB hBfull hBne]
            obtain ⟨q0, hq0, hq0eq⟩ := Finset.exists_mem_eq_inf' hBne
              (fun q => minF c rest (insert p ((insert b C).erase q)))
            rw [hq0eq]
            rcases Finset.mem_insert.mp hq0 with hq0b | hq0C
            · have hsets : insert p ((insert b C).erase q0) = insert a C := by
                rw [hq0b, Finset.erase_insert hbC, hpa]
              rw [hsets]
              omega
            · have hq0a : q0 ≠ a := fun hcon => haC (hcon ▸ hq0C)
              have hq0b : q0 ≠ b := fun hcon => hbC (hcon ▸ hq0C)
              have hq0D : q0 ∉ insert a (C.erase q0) := by
                intro hcon
                rcases Finset.mem_insert.mp hcon with h | h
                · exact hq0a h
                · exact (Finset.not_mem_erase q0 C) h
              have hbD : b ∉ insert a (C.erase q0) := by
                intro hcon
                rcases Finset.mem_insert.mp hcon with h | h
                · exact hab h.symm
                · exact hbC (Finset.mem_of_mem_erase h)
              have hcD : (insert a (C.erase q0)).card + 1 ≤ c := by
                have h1 : a ∉ C.erase q0 := fun hcon => haC (Finset.mem_of_mem_erase hcon)
                rw [Finset.card_insert_of_not_mem h1, Finset.card_erase_of_mem hq0C]
                have := Finset.card_pos.mpr ⟨q0, hq0C⟩
                omega
              have hL := ihL (insert a (C.erase q0)) q0 b hq0D hbD hcD
              have hsets1 : insert q0 (insert a (C.erase q0)) = insert a C :=
                insert_rot a q0 C hq0C
              have hsets2 : insert b (insert a (C.erase q0)) =
                  insert p ((insert b C).erase q0) := by
                rw [hpa, Finset.erase_insert_of_ne (fun hcon => hq0b hcon.symm),
                  Finset.Insert.comm]
              rw [hsets1, hsets2] at hL
              omega
        · by_cases hpb : p = b
          · have hpB : p ∈ insert b C := by
              rw [hpb]
              exact Finset.mem_insert_self b C
            rw [minF_cons_mem c p rest (insert b C) hpB]
            have hpA : p ∉ insert a C := by
              rw [hpb]
              intro hcon
              rcases Finset.mem_insert.mp hcon with h | h
              · exact hab h.symm
              · exact hbC h
            by_cases hAfull : (insert a C).card < c
            · rw [minF_cons_insert c p rest (insert a C) hpA hAfull]
              have hsub : insert b C ⊆ insert p (insert a C) := by
                intro x hx
                rcases Finset.mem_insert.mp hx with h | h
                · rw [h, ← hpb]
                  exact Finset.mem_insert_self p _
                · exact Finset.mem_insert_of_mem (Finset.mem_insert_of_mem h)
              have hc2 : (insert p (insert a C)).card ≤ c := by
                rw [Finset.card_insert_of_not_mem hpA, hcA]
                rw [hcA] at hAfull
                omega
              have hSub := minF_mono_cap rest c c (insert b C)
                (insert p (insert a C)) (le_refl c) hsub (by omega) hc2
              omega
            · have hAne : (insert a C).Nonempty := ⟨a, Finset.mem_insert_self a C⟩
              rw [minF_cons_evict c p rest (insert a C) hpA hAfull hAne]
              have hle := Finset.inf'_le
                (fun q => minF c rest (insert p ((insert a C).erase q)))
                (Finset.mem_insert_self a C)
              have hsets : insert p ((insert a C).erase a) = insert b C := by
                rw [Finset.erase_insert haC, hpb]
              rw [hsets] at hle
              omega
          · by_cases hpC : p ∈ C
            · rw [minF_cons_mem c p rest (insert a C) (Finset.mem_insert_of_mem hpC),
                minF_cons_mem c p rest (insert b C) (Finset.mem_insert_of_mem hpC)]
              exact ihL C a b haC hbC hcard
            · have hpA : p ∉ insert a C := by
                intro hcon
                rcases Finset.mem_insert.mp hcon with h | h
                · exact hpa h
                · exact hpC h
              have hpB : p ∉ insert b C := by
                intro hcon
                rcases Finset.mem_insert.mp hcon with h | h
                · exact hpb h
                · exact hpC h
              by_cases hfull : (insert a C).card < c
              · have hfullB : (insert b C).card < c := by
                  rw [hcB]
                  rw [hcA] at hfull
                  exact hfull
                rw [minF_cons_insert c p rest (insert a C) hpA hfull,
                  minF_cons_insert c p rest (insert b C) hpB hfullB]
                have haP : a ∉ insert p C := by
                  intro hcon
                  rcases Finset.mem_insert.mp hcon with h | h
                  · exact hpa h.symm
                  · exact haC h
                have hbP : b ∉ insert p C := by
                  intro hcon
                  rcases Finset.mem_insert.mp hcon with h | h
                  · exact hpb h.symm
                  · exact hbC h
                have hcP : (insert p C).card + 1 ≤ c := by
                  rw [Finset.card_insert_of_not_mem hpC]
                  rw [hcA] at hfull
                  omega
                have hL := ihL (insert p C) a b haP hbP hcP
                rw [Finset.Insert.comm a p C, Finset.Insert.comm b p C] at hL
                omega
              · have hfullB : ¬ (insert b C).card < c := by
                  rw [hcB]
                  rw [hcA] at hfull
                  exact hfull
                have hAne : (insert a C).Nonempty := ⟨a, Finset.mem_insert_self a C⟩
                have hBne : (insert b C).Nonempty := ⟨b, Finset.mem_insert_self b C⟩
                rw [minF_cons_evict c p rest (insert a C) hpA hfull hAne,
                  minF_cons_evict c p rest (insert b C) hpB hfullB hBne]
                obtain ⟨q', hq', hq'eq⟩ := Finset.exists_mem_eq_inf' hBne
                  (fun q => minF c rest (insert p ((insert b C).erase q)))
                rw [hq'eq]
                rcases Finset.mem_insert.mp hq' with hq'b | hq'C
                · have h1 := Finset.inf'_le
                    (fun q => minF c rest (insert p ((insert a C).erase q)))
                    (Finset.mem_insert_self a C)
                  have hsetsA : insert p ((insert a C).erase a) = insert p C := by
                    rw [Finset.erase_insert haC]
                  have hsetsB : insert p ((insert b C).erase q') = insert p C := by
                    rw [hq'b, Finset.erase_insert hbC]
                  rw [hsetsA] at h1
                  rw [hsetsB]
                  omega
                · have hq'a : q' ≠ a := fun hcon => haC (hcon ▸ hq'C)
                  have hq'b2 : q' ≠ b := fun hcon => hbC (hcon ▸ hq'C)
                  have h1 := Finset.inf'_le
                    (fun q => minF c rest (insert p ((insert a C).erase q)))
                    (Finset.mem_insert_of_mem hq'C : q' ∈ insert a C)
                  have haD : a ∉ insert p (C.erase q') := by
                    intro hcon
                    rcases Finset.mem_insert.mp hcon with h | h
                    · exact hpa h.symm
                    · exact haC (Finset.mem_of_mem_erase h)
                  have hbD : b ∉ insert p (C.erase q') := by
                    intro hcon
                    rcases Finset.mem_insert.mp hcon with h | h
                    · exact hpb h.symm
                    · exact hbC (Finset.mem_of_mem_erase h)
                  have hcD : (insert p (C.erase q')).card + 1 ≤ c := by
                    have h2 : p ∉ C.erase q' := fun hcon =>
                      hpC (Finset.mem_of_mem_erase hcon)
                    rw [Finset.card_insert_of_not_mem h2,
                      Finset.card_erase_of_mem hq'C]
                    have := Finset.card_pos.mpr ⟨q', hq'C⟩
                    omega
                  have hL := ihL (insert p (C.erase q')) a b haD hbD hcD
                  have hsA : insert a (insert p (C.erase q')) =
                      insert p ((insert a C).erase q') := by
                    rw [Finset.erase_insert_of_ne hq'a.symm, Finset.Insert.comm]
                  have hsB : insert b (insert p (C.erase q')) =
                      insert p ((insert b C).erase q') := by
                    rw [Finset.erase_insert_of_ne hq'b2.symm, Finset.Insert.comm]
                  rw [hsA, hsB] at hL
                  omega
      · intro S b hbS hcard
        have hcBS : (insert b S).card = S.card + 1 := Finset.card_insert_of_not_mem hbS
        by_cases hpb : p = b
        · have hpS : p ∉ S := by
            rw [hpb]
            exact hbS
          have hSlt : S.card < c := by omega
          rw [minF_cons_insert c p rest S hpS hSlt]
          have hpB : p ∈ insert b S := by
            rw [hpb]
            exact Finset.mem_insert_self b S
          rw [minF_cons_mem c p rest (insert b S) hpB]
          rw [hpb]
        · by_cases hpS : p ∈ S
          · rw [minF_cons_mem c p rest S hpS,
              minF_cons_mem c p rest (insert b S) (Finset.mem_insert_of_mem hpS)]
            exact ihL2 S b hbS hcard
          · have hpB : p ∉ insert b S := by
              intro hcon
              rcases Finset.mem_insert.mp hcon with h | h
              · exact hpb h
              · exact hpS h
            have hSlt : S.card < c := by omega
            rw [minF_cons_insert c p rest S hpS hSlt]
            by_cases hBfull : (insert b S).card < c
            · rw [minF_cons_insert c p rest (insert b S) hpB hBfull]
              have hbP : b ∉ insert p S := by
                intro hcon
                rcases Finset.mem_insert.mp hcon with h | h
                · exact hpb h.symm
                · exact hbS h
              have hcP : (insert p S).card + 1 ≤ c := by
                rw [Finset.card_insert_of_not_mem hpS]
                rw [hcBS] at hBfull
                omega
              have h2 := ihL2 (insert p S) b hbP hcP
              rw [Finset.Insert.comm b p S] at h2
              omega
            · have hBne : (insert b S).Nonempty := ⟨b, Finset.mem_insert_self b S⟩
              rw [minF_cons_evict c p rest (insert b S) hpB hBfull hBne]
              obtain ⟨t0, ht0, ht0eq⟩ := Finset.exists_mem_eq_inf' hBne
                (fun q => minF c rest (insert p ((insert b S).erase q)))
              rw [ht0eq]
              rcases Finset.mem_insert.mp ht0 with ht0b | ht0S
              · have hsets : insert p ((insert b S).erase t0) = insert p S := by
                  rw [ht0b, Finset.erase_insert hbS]
                rw [hsets]
                omega
              · have ht0p : t0 ≠ p := fun hcon => hpS (hcon ▸ ht0S)
                have ht0b2 : t0 ≠ b := fun hcon => hbS (hcon ▸ ht0S)
                have ht0D : t0 ∉ insert p (S.erase t0) := by
                  intro hcon
                  rcases Finset.mem_insert.mp hcon with h | h
                  · exact ht0p h
                  · exact (Finset.not_mem_erase t0 S) h
                have hbD : b ∉ insert p (S.erase t0) := by
                  intro hcon
                  rcases Finset.mem_insert.mp hcon with h | h
                  · exact hpb h.symm
                  · exact hbS (Finset.mem_of_mem_erase h)
                have hcD : (insert p (S.erase t0)).card + 1 ≤ c := by
                  have h2 : p ∉ S.erase t0 := fun hcon =>
                    hpS (Finset.mem_of_mem_erase hcon)
                  rw [Finset.card_insert_of_not_mem h2,
                    Finset.card_erase_of_mem ht0S]
                  have := Finset.card_pos.mpr ⟨t0, ht0S⟩
                  omega
                have hL := ihL (insert p (S.erase t0)) t0 b ht0D hbD hcD
                have hs1 : insert t0 (insert p (S.erase t0)) = insert p S :=
                  insert_rot p t0 S ht0S
                have hs2 : insert b (insert p (S.erase t0)) =
                    insert p ((insert b S).erase t0) := by
                  rw [Finset.erase_insert_of_ne ht0b2.symm, Finset.Insert.comm]
                rw [hs1, hs2] at hL
                omega

/-- Keeping the sooner-used page is never worse: if `a` is next used no
later than `b`, then serving the remaining references from `C ∪ {a}` costs
at most as much as from `C ∪ {b}`. This is the heart of the Belady
optimality argument. -/
theorem minF_keep_sooner (c : Nat) : ∀ (σ : List Int) (C : Finset Int) (a b : Int),
    a ∉ C → b ∉ C → C.card + 1 ≤ c → nxt σ a ≤ nxt σ b →
    minF c σ (insert a C) ≤ minF c σ (insert b C) := by
  intro σ
  induction σ with
  | nil =>
    intro C a b _ _ _ _
    simp [minF]
  | cons p rest ih =>
    intro C a b haC hbC hcard hnxt
    by_cases hab : a = b
    · rw [hab]
    obtain ⟨exL, exL2⟩ := minF_exchange c rest.length rest (le_refl _)
    have hcA : (insert a C).card = C.card + 1 := Finset.card_insert_of_not_mem haC
    have hcB : (insert b C).card = C.card + 1 := Finset.card_insert_of_not_mem hbC
    rw [nxt_cons, nxt_cons] at hnxt
    by_cases hpa : p = a
    · have hpA : p ∈ insert a C := by
        rw [hpa]
        exact Finset.mem_insert_self a C
      rw [minF_cons_mem c p rest (insert a C) hpA]
      have hpB : p ∉ insert b C := by
        rw [hpa]
        intro hcon
        rcases Finset.mem_insert.mp hcon with h | h
        · exact hab h
        · exact haC h
      by_cases hBfull : (insert b C).card < c
      · rw [minF_cons_insert c p rest (insert b C) hpB hBfull]
        have hbA : b ∉ insert a C := by
          intro hcon
          rcases Finset.mem_insert.mp hcon with h | h
          · exact hab h.symm
          · exact hbC h
        have h2 := exL2 (insert a C) b hbA (by rw [hcA]; rw [hcB] at hBfull; omega)
        have hsets : insert b (insert a C) = insert p (insert b C) := by
          rw [hpa, Finset.Insert.comm]
        rw [hsets] at h2
        omega
      · have hBne : (insert b C).Nonempty := ⟨b, Finset.mem_insert_self b C⟩
        rw [minF_cons_evict c p rest (insert b C) hpB hBfull hBne]
        obtain ⟨q0, hq0, hq0eq⟩ := Finset.exists_mem_eq_inf' hBne
          (fun q => minF c rest (insert p ((insert b C).erase q)))
        rw [hq0eq]
        rcases Finset.mem_insert.mp hq0 with hq0b | hq0C
        · have hsets : insert p ((insert b C).erase q0) = insert a C := by
            rw [hq0b, Finset.erase_insert hbC, hpa]
          rw [hsets]
          omega
        · have hq0a : q0 ≠ a := fun hcon => haC (hcon ▸ hq0C)
          have hq0b : q0 ≠ b := fun hcon => hbC (hcon ▸ hq0C)
          have hq0D : q0 ∉ insert a (C.erase q0) := by
            intro hcon
            rcases Finset.mem_insert.mp hcon with h | h
            · exact hq0a h
            · exact (Finset.not_mem_erase q0 C) h
          have hbD : b ∉ insert a (C.erase q0) := by
            intro hcon
            rcases Finset.mem_insert.mp hcon with h | h
            · exact hab h.symm
            · exact hbC (Finset.mem_of_mem_erase h)
          have hcD : (insert a (C.erase q0)).card + 1 ≤ c := by
            have h1 : a ∉ C.erase q0 := fun hcon => haC (Finset.mem_of_mem_erase hcon)
            rw [Finset.card_insert_of_not_mem h1, Finset.card_erase_of_mem hq0C]
            have := Finset.card_pos.mpr ⟨q0, hq0C⟩
            omega
          have hL := exL (insert a (C.erase q0)) q0 b hq0D hbD hcD
          have hsets1 : insert q0 (insert a (C.erase q0)) = insert a C :=
            insert_rot a q0 C hq0C
          have hsets2 : insert b (insert a (C.erase q0)) =
              insert p ((insert b C).erase q0) := by
            rw [hpa, Finset.erase_insert_of_ne (fun hcon => hq0b hcon.symm),
              Finset.Insert.comm]
          rw [hsets1, hsets2] at hL
          omega
    · by_cases hpb : p = b
      · exfalso
        rw [if_neg hpa, if_pos hpb] at hnxt
        have h0 : nxt rest a + 1 = 0 := le_antisymm hnxt (zero_le _)
        rcases hn : nxt rest a with _ | v
        · rw [hn] at h0
          exact absurd h0 (by simp)
        · rw [hn] at h0
          have : ((v + 1 : ℕ) : ℕ∞) = 0 := by
            push_cast
            exact h0
          rw [Nat.cast_eq_zero] at this
          omega
      · rw [if_neg hpa, if_neg hpb] at hnxt
        have hnxt' : nxt rest a ≤ nxt rest b := nxt_le_of_add_one _ _ hnxt
        by_cases hpC : p ∈ C
        · rw [minF_cons_mem c p rest (insert a C) (Finset.mem_insert_of_mem hpC),
            minF_cons_mem c p rest (insert b C) (Finset.mem_insert_of_mem hpC)]
          exact ih C a b haC hbC hcard hnxt'
        · have hpA : p ∉ insert a C := by
            intro hcon
            rcases Finset.mem_insert.mp hcon with h | h
            · exact hpa h
            · exact hpC h
          have hpB : p ∉ insert b C := by
            intro hcon
            rcases Finset.mem_insert.mp hcon with h | h
            · exact hpb h
            · exact hpC h
          by_cases hfull : (insert a C).card < c
          · have hfullB : (insert b C).card < c := by
              rw [hcB]
              rw [hcA] at hfull
              exact hfull
            rw [minF_cons_insert c p rest (insert a C) hpA hfull,
              minF_cons_insert c p rest (insert b C) hpB hfullB]
            have haP : a ∉ insert p C := by
              intro hcon
              rcases Finset.mem_insert.mp hcon with h | h
              · exact hpa h.symm
              · exact haC h
            have hbP : b ∉ insert p C := by
              intro hcon
              rcases Finset.mem_insert.mp hcon with h | h
              · exact hpb h.symm
              · exact hbC h
            have hcP : (insert p C).card + 1 ≤ c := by
              rw [Finset.card_insert_of_not_mem hpC]
              rw [hcA] at hfull
              omega
            have hM := ih (insert p C) a b haP hbP hcP hnxt'
            rw [Finset.Insert.comm a p C, Finset.Insert.comm b p C] at hM
            omega
          · have hfullB : ¬ (insert b C).card < c := by
              rw [hcB]
              rw [hcA] at hfull
              exact hfull
            have hAne : (insert a C).Nonempty := ⟨a, Finset.mem_insert_self a C⟩
            have hBne : (insert b C).Nonempty := ⟨b, Finset.mem_insert_self b C⟩
            rw [minF_cons_evict c p rest (insert a C) hpA hfull hAne,
              minF_cons_evict c p rest (insert b C) hpB hfullB hBne]
            obtain ⟨q', hq', hq'eq⟩ := Finset.exists_mem_eq_inf' hBne
              (fun q => minF c rest (insert p ((insert b C).erase q)))
            rw [hq'eq]
            rcases Finset.mem_insert.mp hq' with hq'b | hq'C
            · have h1 := Finset.inf'_le
                (fun q => minF c rest (insert p ((insert a C).erase q)))
                (Finset.mem_insert_self a C)
              have hsetsA : insert p ((insert a C).erase a) = insert p C := by
                rw [Finset.erase_insert haC]
              have hsetsB : insert p ((insert b C).erase q') = insert p C := by
                rw [hq'b, Finset.erase_insert hbC]
              rw [hsetsA] at h1
              rw [hsetsB]
              omega
            · have hq'a : q' ≠ a := fun hcon => haC (hcon ▸ hq'C)
              have hq'b2 : q' ≠ b := fun hcon => hbC (hcon ▸ hq'C)
              have h1 := Finset.inf'_le
                (fun q => minF c rest (insert p ((insert a C).erase q)))
                (Finset.mem_insert_of_mem hq'C : q' ∈ insert a C)
              have haD : a ∉ insert p (C.erase q') := by
                intro hcon
                rcases Finset.mem_insert.mp hcon with h | h
                · exact hpa h.symm
                · exact haC (Finset.mem_of_mem_erase h)
              have hbD : b ∉ insert p (C.erase q') := by
                intro hcon
                rcases Finset.mem_insert.mp hcon with h | h
                · exact hpb h.symm
                · exact hbC (Finset.mem_of_mem_erase h)
              have hcD : (insert p (C.erase q')).card + 1 ≤ c := by
                have h2 : p ∉ C.erase q' := fun hcon =>
                  hpC (Finset.mem_of_mem_erase hcon)
                rw [Finset.card_insert_of_not_mem h2,
                  Finset.card_erase_of_mem hq'C]
                have := Finset.card_pos.mpr ⟨q', hq'C⟩
                omega
              have hM := ih (insert p (C.erase q')) a b haD hbD hcD hnxt'
              have hsA : insert a (insert p (C.erase q')) =
                  insert p ((insert a C).erase q') := by
                rw [Finset.erase_insert_of_ne hq'a.symm, Finset.Insert.comm]
              have hsB : insert b (insert p (C.erase q')) =
                  insert p ((insert b C).erase q') := by
                rw [Finset.erase_insert_of_ne hq'b2.symm, Finset.Insert.comm]
              rw [hsA, hsB] at hM
              omega

/-- Membership yields a successful indexed lookup. -/
theorem getElemQ_of_mem {l : List Int} {a : Int} (h : a ∈ l) :
    ∃ n : Nat, l[n]? = some a := by
  obtain ⟨n, hn, he⟩ := List.mem_iff_getElem.mp h
  exact ⟨n, by rw [List.getElem?_eq_getElem hn, he]⟩

/-- Appending one element to a frame list inserts it into the page set. -/
theorem toFinset_append_singleton (l : List Int) (a : Int) :
    (l ++ [a]).toFinset = insert a l.toFinset := by
  ext x
  simp [or_comm]

/-- Overwriting the slot holding `v` replaces `v` by the new page in the
page set, for duplicate-free frames. -/
theorem toFinset_set (page : Int) : ∀ (l : List Int) (k : Nat) (v : Int),
    l.Nodup → l[k]? = some v →
    (l.set k page).toFinset = insert page (l.toFinset.erase v)
  | [], k, v, _, hk => by simp at hk
  | b :: t, 0, v, hnd, hk => by
    rw [List.getElem?_cons_zero] at hk
    injection hk with hk
    subst hk
    rw [List.set_cons_zero]
    have hbt : b ∉ t.toFinset := by
      rw [List.mem_toFinset]
      exact (List.nodup_cons.mp hnd).1
    simp only [List.toFinset_cons]
    rw [Finset.erase_insert hbt]
  | b :: t, k + 1, v, hnd, hk => by
    rw [List.getElem?_cons_succ] at hk
    rw [List.set_cons_succ]
    have hvt : v ∈ t := List.getElem?_mem hk
    have hbv : b ≠ v := fun hcon => (List.nodup_cons.mp hnd).1 (hcon ▸ hvt)
    simp only [List.toFinset_cons]
    rw [toFinset_set page t k v (List.nodup_cons.mp hnd).2 hk,
      Finset.erase_insert_of_ne hbv, Finset.Insert.comm]

/-- The victim from the scan of `simulate_optimal` has maximal next-use
distance among the resident pages, measured in the remaining stretch. -/
theorem nxt_le_of_optspec (reference rest : List Int) (i : Nat)
    (frames : List Int) (hdrop : reference.drop i = rest) (k : Nat) (vq : Int)
    (hspec : OptVictimSpec reference i frames k vq) :
    ∀ q ∈ frames, nxt rest q ≤ nxt rest vq := by
  intro q hq
  obtain ⟨j, hj⟩ := getElemQ_of_mem hq
  have hpy : ∀ x : Int, pyIndexFrom reference x i =
      match rest.findIdx? (fun y => y == x) with
      | some m => some (i + m)
      | none => none := by
    intro x
    rw [pyIndexFrom, hdrop]
  rcases hvq : rest.findIdx? (fun y => y == vq) with _ | mv
  · have hvtop : nxt rest vq = ⊤ := by rw [nxt, hvq]
    rw [hvtop]
    exact le_top
  · have hvq_py : pyIndexFrom reference vq i = some (i + mv) := by rw [hpy, hvq]
    rcases hqf : rest.findIdx? (fun y => y == q) with _ | mq
    · exfalso
      have hq_py : pyIndexFrom reference q i = none := by rw [hpy, hqf]
      have h1 := hspec.2.2.1 ⟨j, q, hj, hq_py⟩
      rw [h1.1] at hvq_py
      exact Option.noConfusion hvq_py
    · have hq_py : pyIndexFrom reference q i = some (i + mq) := by rw [hpy, hqf]
      have hall : ∀ (j' : Nat) (q' : Int), frames[j']? = some q' →
          pyIndexFrom reference q' i ≠ none := by
        intro j' q' hq' hnone
        have h1 := hspec.2.2.1 ⟨j', q', hq', hnone⟩
        rw [h1.1] at hvq_py
        exact Option.noConfusion hvq_py
      have h2 := (hspec.2.2.2 hall).1 j q hj
      rw [hq_py, hvq_py] at h2
      simp only [Option.getD_some] at h2
      have h3 : nxt rest q = (mq : ℕ∞) := by rw [nxt, hqf]
      have h4 : nxt rest vq = (mv : ℕ∞) := by rw [nxt, hvq]
      rw [h3, h4]
      exact_mod_cast (by omega : mq ≤ mv)

/-- C9: on the textbook Belady sequence `[1,2,3,4,1,2,5,1,2,3,4,5]`,
`simulate_fifo` yields 9 total faults with 3 frames and 10 with 4 frames. -/
theorem c9_fifo_belady_counts :
    (simulate_fifo [1, 2, 3, 4, 1, 2, 5, 1, 2, 3, 4, 5] 3).toOption.map
      AlgorithmResult.total_faults = some 9 ∧
    (simulate_fifo [1, 2, 3, 4, 1, 2, 5, 1, 2, 3, 4, 5] 4).toOption.map
      AlgorithmResult.total_faults = some 10 := by
  exact ⟨rfl, rfl⟩

/-- C10: on the empty reference sequence, all three algorithms return a
complete empty `Result` (zero steps, zero faults, hit ratio 0) for every
integer frame count, including zero and negative values; no error is raised
and no capacity validation occurs on this path. -/
theorem c10_empty_reference (c : Int) :
    simulate_fifo [] c = .ok ⟨"FIFO", [], 0⟩ ∧
    simulate_lru [] c = .ok ⟨"LRU", [], 0⟩ ∧
    simulate_optimal [] c = .ok ⟨"Optimal", [], 0⟩ ∧
    AlgorithmResult.hit_ratio ⟨"FIFO", [], 0⟩ = 0 ∧
    AlgorithmResult.hit_ratio ⟨"LRU", [], 0⟩ = 0 ∧
    AlgorithmResult.hit_ratio ⟨"Optimal", [], 0⟩ = 0 := by
  exact ⟨rfl, rfl, rfl, rfl, rfl, rfl⟩

/-- C4 counterexample: at frame capacity 0 with the empty reference
sequence, all three algorithms return a full `Result` and raise no failure
at all, so it is false that every nonpositive capacity makes each
algorithm fail. -/
theorem c4_counterexample :
    simulate_fifo [] 0 = .ok ⟨"FIFO", [], 0⟩ ∧
    simulate_lru [] 0 = .ok ⟨"LRU", [], 0⟩ ∧
    simulate_optimal [] 0 = .ok ⟨"Optimal", [], 0⟩ := by
  exact ⟨rfl, rfl, rfl⟩

/-- C4 amended: for every nonpositive frame capacity and every non-empty
reference sequence, each algorithm fails on the very first reference — with
a generic container error (IndexError for FIFO and Optimal, ValueError for
LRU) rather than a dedicated invalid-capacity failure — and no partial
`Result` is returned; the empty reference sequence bypasses any check. -/
theorem c4_nonpositive_capacity_errors (c : Int) (hc : c ≤ 0) (page : Int)
    (rest : List Int) :
    simulate_fifo (page :: rest) c = .error .indexError ∧
    simulate_lru (page :: rest) c = .error .valueError ∧
    simulate_optimal (page :: rest) c = .error .indexError := by
  have h0 : ¬ ((0 : Int) < c) := by omega
  refine ⟨?_, ?_, ?_⟩ <;>
    simp [simulate_fifo, simulate_lru, simulate_optimal, fifoGo, lruGo, optGo,
      fifoStep, lruStep, optStep, optScan, h0]

/-- C4 amended, witness: concrete instance at capacity 0 on `[5]`. -/
theorem c4_nonpositive_capacity_errors_witness :
    simulate_fifo [5] 0 = .error .indexError ∧
    simulate_lru [5] 0 = .error .valueError ∧
    simulate_optimal [5] 0 = .error .indexError :=
  c4_nonpositive_capacity_errors 0 (le_refl 0) 5 []


/-- Lower bound for Belady optimality: the offline optimum `minF` never
exceeds the fault count of the greedy optimal simulator, since each greedy
eviction is one of the choices the optimum minimizes over. -/
theorem optGo_minF_le (reference : List Int) (c : Int) (hc : 1 ≤ c) :
    ∀ (rem : List Int) (i : Nat) (frames : List Int) (steps : List StepResult)
      (f : Nat),
    frames.Nodup → (frames.length : Int) ≤ c → 1 ≤ i →
    reference.drop (i - 1) = rem →
    optGo reference c i rem frames = .ok (steps, f) →
    minF c.toNat rem frames.toFinset ≤ f := by
  intro rem
  induction rem with
  | nil =>
    intro i frames steps f _ _ _ _ _
    simp [minF]
  | cons page rest ih =>
    intro i frames steps f hnd hlen hi hdrop hgo
    have hdrop' : reference.drop i = rest := by
      have h1 := List.drop_drop 1 (i - 1) reference
      rw [hdrop, show i - 1 + 1 = i by omega] at h1
      simpa using h1.symm
    have hdropIH : reference.drop (i + 1 - 1) = rest := by
      simpa using hdrop'
    by_cases hp : page ∈ frames
    · simp only [optGo, optStep_eq_hit reference c i page frames hp] at hgo
      rcases hrec : optGo reference c (i + 1) rest frames with e | ⟨steps1, f1⟩
      · rw [hrec] at hgo
        simp at hgo
      rw [hrec] at hgo
      simp at hgo
      obtain ⟨-, hf⟩ := hgo
      rw [minF_cons_mem c.toNat page rest frames.toFinset (List.mem_toFinset.mpr hp)]
      have hih := ih (i + 1) frames steps1 f1 hnd hlen (by omega) hdropIH hrec
      omega
    · by_cases hlt : (frames.length : Int) < c
      · simp only [optGo, optStep_eq_insert reference c i page frames hp hlt] at hgo
        rcases hrec : optGo reference c (i + 1) rest (frames ++ [page]) with
          e | ⟨steps1, f1⟩
        · rw [hrec] at hgo
          simp at hgo
        rw [hrec] at hgo
        simp at hgo
        obtain ⟨-, hf⟩ := hgo
        have hpS : page ∉ frames.toFinset := fun hcon => hp (List.mem_toFinset.mp hcon)
        have hcard : frames.toFinset.card < c.toNat := by
          rw [List.toFinset_card_of_nodup hnd]
          omega
        rw [minF_cons_insert c.toNat page rest frames.toFinset hpS hcard]
        have hnd1 : (frames ++ [page]).Nodup := by
          simp [List.nodup_append, hnd, hp]
        have hlen1 : ((frames ++ [page]).length : Int) ≤ c := by
          simp only [List.length_append, List.length_cons, List.length_nil]
          push_cast
          omega
        have hih := ih (i + 1) (frames ++ [page]) steps1 f1 hnd1 hlen1 (by omega)
          hdropIH hrec
        rw [toFinset_append_singleton] at hih
        omega
      · have hne := frames_ne_nil_of_full hc hlt
        obtain ⟨k, vq, hspec, heq⟩ :=
          optStep_full_spec reference c i page frames hp hlt hne
        simp only [optGo, heq] at hgo
        rcases hrec : optGo reference c (i + 1) rest (frames.set k page) with
          e | ⟨steps1, f1⟩
        · rw [hrec] at hgo
          simp at hgo
        rw [hrec] at hgo
        simp at hgo
        obtain ⟨-, hf⟩ := hgo
        have hpS : page ∉ frames.toFinset := fun hcon => hp (List.mem_toFinset.mp hcon)
        have hcardS : ¬ frames.toFinset.card < c.toNat := by
          rw [List.toFinset_card_of_nodup hnd]
          omega
        have hvq_mem : vq ∈ frames := List.getElem?_mem hspec.2.1
        have hSne : frames.toFinset.Nonempty := ⟨vq, List.mem_toFinset.mpr hvq_mem⟩
        have hev := minF_cons_evict c.toNat page rest frames.toFinset hpS hcardS hSne
        have hnd1 : (frames.set k page).Nodup := hnd.set hp
        have hlen1 : ((frames.set k page).length : Int) ≤ c := by simpa using hlen
        have hih := ih (i + 1) (frames.set k page) steps1 f1 hnd1 hlen1 (by omega)
          hdropIH hrec
        rw [toFinset_set page frames k vq hnd hspec.2.1] at hih
        have hinf : frames.toFinset.inf' hSne
            (fun q => minF c.toNat rest (insert page (frames.toFinset.erase q))) ≤
            minF c.toNat rest (insert page (frames.toFinset.erase vq)) :=
          Finset.inf'_le _ (List.mem_toFinset.mpr hvq_mem)
        omega

/-- Upper bound for Belady optimality: the greedy optimal simulator achieves
the offline optimum `minF` — evicting the resident page with the farthest
next use is never worse than any other eviction. -/
theorem optGo_le_minF (reference : List Int) (c : Int) (hc : 1 ≤ c) :
    ∀ (rem : List Int) (i : Nat) (frames : List Int) (steps : List StepResult)
      (f : Nat),
    frames.Nodup → (frames.length : Int) ≤ c → 1 ≤ i →
    reference.drop (i - 1) = rem →
    optGo reference c i rem frames = .ok (steps, f) →
    f ≤ minF c.toNat rem frames.toFinset := by
  intro rem
  induction rem with
  | nil =>
    intro i frames steps f _ _ _ _ hgo
    simp only [optGo, Except.ok.injEq, Prod.mk.injEq] at hgo
    obtain ⟨-, hf⟩ := hgo
    simp [minF]
    omega
  | cons page rest ih =>
    intro i frames steps f hnd hlen hi hdrop hgo
    have hdrop' : reference.drop i = rest := by
      have h1 := List.drop_drop 1 (i - 1) reference
      rw [hdrop, show i - 1 + 1 = i by omega] at h1
      simpa using h1.symm
    have hdropIH : reference.drop (i + 1 - 1) = rest := by
      simpa using hdrop'
    by_cases hp : page ∈ frames
    · simp only [optGo, optStep_eq_hit reference c i page frames hp] at hgo
      rcases hrec : optGo reference c (i + 1) rest frames with e | ⟨steps1, f1⟩
      · rw [hrec] at hgo
        simp at hgo
      rw [hrec] at hgo
      simp at hgo
      obtain ⟨-, hf⟩ := hgo
      rw [minF_cons_mem c.toNat page rest frames.toFinset (List.mem_toFinset.mpr hp)]
      have hih := ih (i + 1) frames steps1 f1 hnd hlen (by omega) hdropIH hrec
      omega
    · by_cases hlt : (frames.length : Int) < c
      · simp only [optGo, optStep_eq_insert reference c i page frames hp hlt] at hgo
        rcases hrec : optGo reference c (i + 1) rest (frames ++ [page]) with
          e | ⟨steps1, f1⟩
        · rw [hrec] at hgo
          simp at hgo
        rw [hrec] at hgo
        simp at hgo
        obtain ⟨-, hf⟩ := hgo
        have hpS : page ∉ frames.toFinset := fun hcon => hp (List.mem_toFinset.mp hcon)
        have hcard : frames.toFinset.card < c.toNat := by
          rw [List.toFinset_card_of_nodup hnd]
          omega
        rw [minF_cons_insert c.toNat page rest frames.toFinset hpS hcard]
        have hnd1 : (frames ++ [page]).Nodup := by
          simp [List.nodup_append, hnd, hp]
        have hlen1 : ((frames ++ [page]).length : Int) ≤ c := by
          simp only [List.length_append, List.length_cons, List.length_nil]
          push_cast
          omega
        have hih := ih (i + 1) (frames ++ [page]) steps1 f1 hnd1 hlen1 (by omega)
          hdropIH hrec
        rw [toFinset_append_singleton] at hih
        omega
      · have hne := frames_ne_nil_of_full hc hlt
        obtain ⟨k, vq, hspec, heq⟩ :=
          optStep_full_spec reference c i page frames hp hlt hne
        simp only [optGo, heq] at hgo
        rcases hrec : optGo reference c (i + 1) rest (frames.set k page) with
          e | ⟨steps1, f1⟩
        · rw [hrec] at hgo
          simp at hgo
        rw [hrec] at hgo
        simp at hgo
        obtain ⟨-, hf⟩ := hgo
        have hpS : page ∉ frames.toFinset := fun hcon => hp (List.mem_toFinset.mp hcon)
        have hcardS : ¬ frames.toFinset.card < c.toNat := by
          rw [List.toFinset_card_of_nodup hnd]
          omega
        have hvq_mem : vq ∈ frames := List.getElem?_mem hspec.2.1
        have hSne : frames.toFinset.Nonempty := ⟨vq, List.mem_toFinset.mpr hvq_mem⟩
        have hev := minF_cons_evict c.toNat page rest frames.toFinset hpS hcardS hSne
        have hnd1 : (frames.set k page).Nodup := hnd.set hp
        have hlen1 : ((frames.set k page).length : Int) ≤ c := by simpa using hlen
        have hih := ih (i + 1) (frames.set k page) steps1 f1 hnd1 hlen1 (by omega)
          hdropIH hrec
        rw [toFinset_set page frames k vq hnd hspec.2.1] at hih
        obtain ⟨q0, hq0S, hq0eq⟩ := Finset.exists_mem_eq_inf' hSne
          (fun q => minF c.toNat rest (insert page (frames.toFinset.erase q)))
        have hq0eq2 : frames.toFinset.inf' hSne
            (fun q => minF c.toNat rest (insert page (frames.toFinset.erase q))) =
            minF c.toNat rest (insert page (frames.toFinset.erase q0)) := hq0eq
        have hkey : minF c.toNat rest (insert page (frames.toFinset.erase vq)) ≤
            minF c.toNat rest (insert page (frames.toFinset.erase q0)) := by
          by_cases hvq0 : vq = q0
          · rw [hvq0]
          · have hq0frames : q0 ∈ frames := List.mem_toFinset.mp hq0S
            have hnxt := nxt_le_of_optspec reference rest i frames hdrop' k vq hspec
              q0 hq0frames
            have hpne0 : page ≠ q0 := fun hcon => hp (hcon ▸ hq0frames)
            have hpnev : page ≠ vq := fun hcon => hp (hcon ▸ hvq_mem)
            have hq0er : q0 ∈ frames.toFinset.erase vq :=
              Finset.mem_erase.mpr ⟨fun hcon => hvq0 hcon.symm, hq0S⟩
            have hvqer : vq ∈ frames.toFinset.erase q0 :=
              Finset.mem_erase.mpr ⟨hvq0, List.mem_toFinset.mpr hvq_mem⟩
            have hId1 : insert q0
                (insert page ((frames.toFinset.erase vq).erase q0)) =
                insert page (frames.toFinset.erase vq) := by
              rw [Finset.Insert.comm, Finset.insert_erase hq0er]
            have hId2 : insert vq
                (insert page ((frames.toFinset.erase vq).erase q0)) =
                insert page (frames.toFinset.erase q0) := by
              rw [Finset.Insert.comm, Finset.erase_right_comm,
                Finset.insert_erase hvqer]
            have hq0C : q0 ∉ insert page ((frames.toFinset.erase vq).erase q0) := by
              intro hcon
              rcases Finset.mem_insert.mp hcon with h | h
              · exact hpne0 h.symm
              · exact Finset.not_mem_erase q0 _ h
            have hvqC : vq ∉ insert page ((frames.toFinset.erase vq).erase q0) := by
              intro hcon
              rcases Finset.mem_insert.mp hcon with h | h
              · exact hpnev h.symm
              · exact Finset.not_mem_erase vq _ (Finset.mem_of_mem_erase h)
            have h2card : 1 < frames.toFinset.card :=
              Finset.one_lt_card.mpr
                ⟨vq, List.mem_toFinset.mpr hvq_mem, q0, hq0S, hvq0⟩
            have hSle : frames.toFinset.card ≤ c.toNat := by
              rw [List.toFinset_card_of_nodup hnd]
              omega
            have hcC : (insert page
                ((frames.toFinset.erase vq).erase q0)).card + 1 ≤ c.toNat := by
              have hpC : page ∉ (frames.toFinset.erase vq).erase q0 := fun hcon =>
                hpS (Finset.mem_of_mem_erase (Finset.mem_of_mem_erase hcon))
              rw [Finset.card_insert_of_not_mem hpC,
                Finset.card_erase_of_mem hq0er,
                Finset.card_erase_of_mem (List.mem_toFinset.mpr hvq_mem)]
              omega
            have hM := minF_keep_sooner c.toNat rest
              (insert page ((frames.toFinset.erase vq).erase q0)) q0 vq
              hq0C hvqC hcC hnxt
            rw [hId1, hId2] at hM
            exact hM
        omega


/-- C6: for `simulate_lru` and `simulate_optimal`, for every reference
sequence and every frame capacity c ≥ 1, running the same sequence with
capacity c + 1 never yields a larger `total_faults` than running it with
capacity c. -/
theorem c6_capacity_monotone (reference : List Int) (c : Int) (hc : 1 ≤ c)
    (rL rL2 rO rO2 : AlgorithmResult)
    (hL : simulate_lru reference c = .ok rL)
    (hL2 : simulate_lru reference (c + 1) = .ok rL2)
    (hO : simulate_optimal reference c = .ok rO)
    (hO2 : simulate_optimal reference (c + 1) = .ok rO2) :
    rL2.total_faults ≤ rL.total_faults ∧ rO2.total_faults ≤ rO.total_faults := by
  constructor
  · rcases hgo : lruGo c 1 reference [] (fun _ => none) with e | ⟨stepsL, fL⟩
    · simp [simulate_lru, hgo] at hL
    rcases hgo2 : lruGo (c + 1) 1 reference [] (fun _ => none) with
      e2 | ⟨stepsL2, fL2⟩
    · simp [simulate_lru, hgo2] at hL2
    simp only [simulate_lru, hgo] at hL
    simp only [simulate_lru, hgo2] at hL2
    injection hL with hL
    injection hL2 with hL2
    subst hL hL2
    show fL2 ≤ fL
    exact lruGo_pair_mono c hc reference 1 [] [] (fun _ => none)
      stepsL stepsL2 fL fL2 List.nodup_nil List.nodup_nil
      (by simp only [List.length_nil, Nat.cast_zero]; omega)
      (by simp only [List.length_nil, Nat.cast_zero]; omega)
      (fun x hx => absurd hx (List.not_mem_nil x))
      (fun _ x => Iff.rfl)
      (by simp)
      (by simp)
      hgo hgo2
  · rcases hgo : optGo reference c 1 reference [] with e | ⟨stepsO, fO⟩
    · simp [simulate_optimal, hgo] at hO
    rcases hgo2 : optGo reference (c + 1) 1 reference [] with e2 | ⟨stepsO2, fO2⟩
    · simp [simulate_optimal, hgo2] at hO2
    simp only [simulate_optimal, hgo] at hO
    simp only [simulate_optimal, hgo2] at hO2
    injection hO with hO
    injection hO2 with hO2
    subst hO hO2
    show fO2 ≤ fO
    have h1 := optGo_le_minF reference (c + 1) (by omega) reference 1 [] stepsO2 fO2
      List.nodup_nil (by simp only [List.length_nil, Nat.cast_zero]; omega)
      (le_refl 1) (by simp) hgo2
    have h2 := optGo_minF_le reference c hc reference 1 [] stepsO fO
      List.nodup_nil (by simp only [List.length_nil, Nat.cast_zero]; omega)
      (le_refl 1) (by simp) hgo
    have h3 : minF (c + 1).toNat reference (([] : List Int)).toFinset ≤
        minF c.toNat reference (([] : List Int)).toFinset :=
      minF_mono_cap reference c.toNat (c + 1).toNat _ _ (by omega)
        (Finset.Subset.refl _) (by simp) (by simp)
    omega

/-- C6, witness: on the reference sequence `[1, 2, 1]`, both LRU and
Optimal incur 3 faults with 1 frame and only 2 faults with 2 frames. -/
theorem c6_capacity_monotone_witness :
    (AlgorithmResult.mk "LRU"
        [⟨1, 1, [1], false⟩, ⟨2, 2, [1, 2], false⟩, ⟨3, 1, [1, 2], true⟩]
        2).total_faults ≤
      (AlgorithmResult.mk "LRU"
        [⟨1, 1, [1], false⟩, ⟨2, 2, [2], false⟩, ⟨3, 1, [1], false⟩]
        3).total_faults ∧
    (AlgorithmResult.mk "Optimal"
        [⟨1, 1, [1], false⟩, ⟨2, 2, [1, 2], false⟩, ⟨3, 1, [1, 2], true⟩]
        2).total_faults ≤
      (AlgorithmResult.mk "Optimal"
        [⟨1, 1, [1], false⟩, ⟨2, 2, [2], false⟩, ⟨3, 1, [1], false⟩]
        3).total_faults :=
  c6_capacity_monotone [1, 2, 1] 1 (le_refl 1) _ _ _ _ rfl rfl rfl rfl

end PageSim
